import Mathlib

/-!
Verification of the matching core of the dream-interpretation program
(`long_interpretation.py`): text normalization, Turkish folding, the
heuristic stemmer, the n-gram matcher with its substring fallback, the
sentiment tagger, and dataset loading.

Strings are modeled as `List Char`.  The Unicode library calls
(`unicodedata.normalize`, `str.casefold`, `unicodedata.category`) are
modeled by explicit character tables restricted to the repertoire the
program works with: ASCII plus the precomposed Turkish letters
(ç ğ ı ö ş ü â î û and their upper-case forms, plus İ) and the combining
marks their canonical decompositions involve.  Characters outside this
repertoire are left untouched by every table, which is consistent with
the fact that the program only ever feeds it Turkish text.
-/

/-- Model of a Python string: a list of Unicode characters. -/
abbrev Str := List Char

/-- Converts a Lean string literal to the `Str` model. -/
def chars (s : String) : Str := s.data

/-- Models the Python whitespace class (`str.strip`, regex backslash-s)
restricted to the ASCII whitespace characters. -/
def isWsChar (c : Char) : Bool :=
  c == ' ' || c == '\t' || c == '\n' || c == '\r' || c == '\x0b' || c == '\x0c'

/-- Models `str.casefold` on the repertoire: the table sends each
upper-case letter of the repertoire to its full case folding.  Note that
U+0130 (İ) case-folds to the two-character sequence i followed by
U+0307 (combining dot above), exactly as in Python. -/
def casefoldTable : List (Char × Str) :=
  [('A', ['a']), ('B', ['b']), ('C', ['c']), ('D', ['d']), ('E', ['e']),
   ('F', ['f']), ('G', ['g']), ('H', ['h']), ('I', ['i']), ('J', ['j']),
   ('K', ['k']), ('L', ['l']), ('M', ['m']), ('N', ['n']), ('O', ['o']),
   ('P', ['p']), ('Q', ['q']), ('R', ['r']), ('S', ['s']), ('T', ['t']),
   ('U', ['u']), ('V', ['v']), ('W', ['w']), ('X', ['x']), ('Y', ['y']),
   ('Z', ['z']),
   ('Ç', ['ç']), ('Ğ', ['ğ']), ('Ö', ['ö']), ('Ş', ['ş']), ('Ü', ['ü']),
   ('Â', ['â']), ('Î', ['î']), ('Û', ['û']),
   ('İ', ['i', '̇'])]

/-- Case folding of a single character (identity off the table). -/
def pyCasefoldChar (c : Char) : Str :=
  match casefoldTable.find? (fun e => e.1 == c) with
  | some e => e.2
  | none => [c]

/-- Models `str.casefold` on a string. -/
def pyCasefold (l : Str) : Str := l.flatMap pyCasefoldChar

/-- Canonical decompositions (NFD) of the precomposed repertoire
characters: each entry is (composed, base, combining mark). -/
def nfdTable : List (Char × Char × Char) :=
  [('â', 'a', '̂'), ('î', 'i', '̂'), ('û', 'u', '̂'),
   ('ç', 'c', '̧'), ('ğ', 'g', '̆'), ('ö', 'o', '̈'),
   ('ü', 'u', '̈'), ('ş', 's', '̧'),
   ('Â', 'A', '̂'), ('Î', 'I', '̂'), ('Û', 'U', '̂'),
   ('Ç', 'C', '̧'), ('Ğ', 'G', '̆'), ('Ö', 'O', '̈'),
   ('Ü', 'U', '̈'), ('Ş', 'S', '̧'), ('İ', 'I', '̇')]

/-- Canonical decomposition of one character (identity off the table). -/
def nfdChar (c : Char) : Str :=
  match nfdTable.find? (fun e => e.1 == c) with
  | some e => [e.2.1, e.2.2]
  | none => [c]

/-- Models `unicodedata.normalize("NFD", s)` on the repertoire. -/
def nfd (l : Str) : Str := l.flatMap nfdChar

/-- Canonical composition table, by construction the inverse of the
decomposition table. -/
def composeTable : List ((Char × Char) × Char) :=
  nfdTable.map (fun e => ((e.2.1, e.2.2), e.1))

/-- Canonical composition of a base and a following combining mark. -/
def composePair (b m : Char) : Option Char :=
  match composeTable.find? (fun e => e.1.1 == b && e.1.2 == m) with
  | some e => some e.2
  | none => none

/-- Composition pass of the canonical composition algorithm: `b` is the
pending starter, which is repeatedly composed with the next character
when the table allows it. -/
def nfcAux : Char → Str → Str
  | b, [] => [b]
  | b, m :: rest =>
    match composePair b m with
    | some c => nfcAux c rest
    | none => b :: nfcAux m rest

/-- Composition pass over a whole string. -/
def nfcRun : Str → Str
  | [] => []
  | c :: rest => nfcAux c rest

/-- Models `unicodedata.normalize("NFC", s)`: decompose, then compose. -/
def nfcStr (l : Str) : Str := nfcRun (nfd l)

/-- Models `unicodedata.normalize("NFKC", s)`: on this repertoire the
compatibility decompositions coincide with the canonical ones, so NFKC
acts like NFC. -/
def nfkcStr (l : Str) : Str := nfcRun (nfd l)

/-- Models the combining-mark class (`unicodedata.category(ch) == "Mn"`)
restricted to the repertoire. -/
def isMnChar (c : Char) : Bool :=
  c == '̀' || c == '́' || c == '̂' || c == '̆' ||
  c == '̇' || c == '̈' || c == '̧'

/-- Models one regex substitution `re.sub(r"\s+", " ", s)`: every maximal
whitespace run becomes a single space.  The flag records whether the scan
is currently inside a run whose replacement space was already emitted. -/
def collapseWsAux : Bool → Str → Str
  | _, [] => []
  | inWs, c :: rest =>
    if isWsChar c then
      (if inWs then collapseWsAux true rest else ' ' :: collapseWsAux true rest)
    else c :: collapseWsAux false rest

/-- Models `re.sub(r"\s+", " ", s)`. -/
def collapseWs (l : Str) : Str := collapseWsAux false l

/-- Removes a maximal trailing whitespace run (the right half of
`str.strip`). -/
def dropTrailingWs : Str → Str
  | [] => []
  | c :: rest =>
    match dropTrailingWs rest with
    | [] => if isWsChar c then [] else [c]
    | r => c :: r

/-- Models `str.strip()`. -/
def pyStrip (l : Str) : Str := dropTrailingWs (l.dropWhile isWsChar)

/-- Embedding of `normalize_text`: strip, NFKC-normalize, case-fold,
collapse whitespace runs to single spaces. -/
def normalize_text (s : Str) : Str :=
  collapseWs (pyCasefold (nfkcStr (pyStrip s)))

/-- The character substitution table built with `str.maketrans` in
`fold_tr` (Turkish letters to close ASCII letters). -/
def trTable : List (Char × Char) :=
  [('ı', 'i'), ('İ', 'i'), ('I', 'i'),
   ('ş', 's'), ('Ş', 's'),
   ('ğ', 'g'), ('Ğ', 'g'),
   ('ç', 'c'), ('Ç', 'c'),
   ('ö', 'o'), ('Ö', 'o'),
   ('ü', 'u'), ('Ü', 'u'),
   ('â', 'a'), ('î', 'i'), ('û', 'u')]

/-- Models `str.translate` with `trTable` on one character. -/
def trTrans (c : Char) : Char :=
  match trTable.find? (fun e => e.1 == c) with
  | some e => e.2
  | none => c

/-- Embedding of `fold_tr`: NFKC + casefold, apply the Turkish
substitution table, NFD-decompose and drop combining marks,
NFC-recompose, collapse whitespace and strip. -/
def fold_tr (s : Str) : Str :=
  pyStrip (collapseWs (nfcStr
    ((nfd ((pyCasefold (nfkcStr s)).map trTrans)).filter
      (fun c => !(isMnChar c)))))

/-- Models the word-character class of `_word_re`
(`[\wçğıöşüâîûÇĞİÖŞÜ]`, IGNORECASE) on the repertoire: ASCII word
characters plus the Turkish letters of the class. -/
def isWordChar (c : Char) : Bool :=
  ('a' ≤ c && c ≤ 'z') || ('A' ≤ c && c ≤ 'Z') || ('0' ≤ c && c ≤ '9') ||
  c == '_' ||
  c == 'ç' || c == 'ğ' || c == 'ı' || c == 'ö' || c == 'ş' || c == 'ü' ||
  c == 'â' || c == 'î' || c == 'û' ||
  c == 'Ç' || c == 'Ğ' || c == 'İ' || c == 'Ö' || c == 'Ş' || c == 'Ü'

/-- Accumulator pass for `tokenize`: `cur` holds the reversed current
word run. -/
def tokenizeAux : Str → Str → List Str
  | cur, [] => if cur.isEmpty then [] else [cur.reverse]
  | cur, c :: rest =>
    if isWordChar c then tokenizeAux (c :: cur) rest
    else if cur.isEmpty then tokenizeAux [] rest
    else cur.reverse :: tokenizeAux [] rest

/-- Embedding of `tokenize`: `_word_re.findall`, the maximal runs of
word characters in order. -/
def tokenize (s : Str) : List Str := tokenizeAux [] s

/-- Accumulator pass for `pySplit` (same shape as `tokenizeAux`, with
non-whitespace runs). -/
def pySplitAux : Str → Str → List Str
  | cur, [] => if cur.isEmpty then [] else [cur.reverse]
  | cur, c :: rest =>
    if isWsChar c then
      (if cur.isEmpty then pySplitAux [] rest else cur.reverse :: pySplitAux [] rest)
    else pySplitAux (c :: cur) rest

/-- Models `str.split()` with no argument: maximal non-whitespace runs. -/
def pySplit (s : Str) : List Str := pySplitAux [] s

/-- Models the Python substring test `sub in s` (contiguous substring). -/
def pyInStr (sub s : Str) : Bool := decide (sub <:+: s)

/-- The vowels selecting the infinitive suffix "mak" (back vowels). -/
def VOWELS_A : List Char := ['a', 'ı', 'o', 'u']

/-- The vowels selecting the infinitive suffix "mek" (front vowels). -/
def VOWELS_E : List Char := ['e', 'i', 'ö', 'ü']

/-- All vowels recognized by the stemmer. -/
def VOWELS : List Char := VOWELS_A ++ VOWELS_E

/-- Embedding of `last_vowel`: the last vowel of the stem, defaulting
to the letter a. -/
def last_vowel (stem : Str) : Char :=
  match stem.reverse.find? (fun c => VOWELS.contains c) with
  | some v => v
  | none => 'a'

/-- Embedding of `guess_inf_suffix`: "mak" after a back vowel, "mek"
after a front vowel. -/
def guess_inf_suffix (stem : Str) : Str :=
  if VOWELS_A.contains (last_vowel stem) then chars ("mak") else chars ("mek")

/-- The raw inflection suffix table `SUFFIXES` of the source. -/
def SUFFIXES : List Str :=
  [chars ("yormuş"), chars ("yordu"), chars ("yorsun"), chars ("yorum"),
   chars ("yorsam"), chars ("yorsak"),
   chars ("yorm"),
   chars ("miş"), chars ("mış"), chars ("muş"), chars ("müş"),
   chars ("eceğim"), chars ("acağım"), chars ("ecek"), chars ("acak"),
   chars ("dik"), chars ("dık"), chars ("duk"), chars ("dük"),
   chars ("tik"), chars ("tık"), chars ("tuk"), chars ("tük"),
   chars ("dim"), chars ("dım"), chars ("dum"), chars ("düm"),
   chars ("tim"), chars ("tım"), chars ("tum"), chars ("tüm"),
   chars ("sin"), chars ("sın"), chars ("sun"), chars ("sün"),
   chars ("siniz"), chars ("sınız"), chars ("sunuz"), chars ("sünüz"),
   chars ("ler"), chars ("lar"),
   chars ("yor")]

/-- Embedding of `SUFFIXES_F`: the folded suffixes with duplicates
removed.  The Python source also sorts the set by descending length, but
the stemmer tries every entry of the table, so the iteration order has
no effect on the computed candidate set and is not modeled. -/
def SUFFIXES_F : List Str := (SUFFIXES.map fold_tr).dedup

/-- Tests whether a candidate already ends in an infinitive marker. -/
def endsWithInf (s : Str) : Bool :=
  (chars ("mak")).isSuffixOf s || (chars ("mek")).isSuffixOf s

/-- One step of the suffix-stripping loop of `tr_stem_candidates`: if the
token ends with the suffix, add the remaining prefix, and after a
"yor"-initial suffix also add the prefix with a trailing vowel dropped. -/
def stemSuffixStep (t : Str) (acc : List Str) (suf : Str) : List Str :=
  if suf.isSuffixOf t then
    if (chars ("yor")).isPrefixOf suf &&
        !((t.take (t.length - suf.length)).isEmpty) then
      match (t.take (t.length - suf.length)).getLast? with
      | some c =>
        if VOWELS.contains c then
          (acc ++ [t.take (t.length - suf.length)]) ++
            [(t.take (t.length - suf.length)).dropLast]
        else acc ++ [t.take (t.length - suf.length)]
      | none => acc ++ [t.take (t.length - suf.length)]
    else acc ++ [t.take (t.length - suf.length)]
  else acc

/-- The candidate set after the suffix-stripping loop, seeded with the
token itself. -/
def stemOut1 (t : Str) : List Str := SUFFIXES_F.foldl (stemSuffixStep t) [t]

/-- Candidates after also removing the infinitive markers "mak"/"mek". -/
def stemOut2 (t : Str) : List Str :=
  stemOut1 t ++ (stemOut1 t).filterMap
    (fun b => if endsWithInf b then some (b.take (b.length - 3)) else none)

/-- Candidates of length at least 2. -/
def stemOut3 (t : Str) : List Str := (stemOut2 t).filter (fun s => 2 ≤ s.length)

/-- Candidates after synthesizing an infinitive for every candidate not
already ending in an infinitive marker. -/
def stemOut4 (t : Str) : List Str :=
  stemOut3 t ++ (stemOut3 t).filterMap
    (fun s => if endsWithInf s then none else some (s ++ guess_inf_suffix s))

/-- Embedding of `tr_stem_candidates`.  The Python function collects the
candidates in a set and returns them sorted; every consumer only tests
membership, so the candidates are modeled as a list (possibly with
duplicates) with the same members. -/
def tr_stem_candidates (t : Str) : List Str := (stemOut4 t).map fold_tr

/-- Embedding of the synonym-equivalence table `SYN_EQUIV`. -/
def SYN_EQUIV : List (Str × List Str) :=
  [(chars ("opusmek"), [chars ("opmek")]),
   (chars ("savasmak"), [chars ("savas")]),
   (chars ("kavga etmek"), [chars ("kavga")])]

/-- Lookup in `SYN_EQUIV` (the empty expansion off the table). -/
def synLookup (c : Str) : List Str :=
  match SYN_EQUIV.find? (fun e => e.1 == c) with
  | some e => e.2
  | none => []

/-- Model of the dictionary index: keys in insertion order, each with
the list of (word, meaning) pairs registered under it. -/
abbrev Index := List (Str × List (Str × Str))

/-- Appends pairs under a key, keeping the first-insertion key order
(the behavior of `dict.setdefault(...).extend(...)`). -/
def insertAppend : Index → Str → List (Str × Str) → Index
  | [], k, v => [(k, v)]
  | (k', v') :: rest, k, v =>
    if k' == k then (k', v' ++ v) :: rest else (k', v') :: insertAppend rest k v

/-- Embedding of the folded-index construction in `find_matches`: re-key
every index entry by its folded key, concatenating pair lists that
collide. -/
def foldIndex (idx : Index) : Index :=
  idx.foldl (fun acc e => insertAppend acc (fold_tr e.1) e.2) []

/-- Lookup of the pair list registered under a folded key. -/
def lookupIdx (fidx : Index) (k : Str) : List (Str × Str) :=
  match fidx.find? (fun e => e.1 == k) with
  | some e => e.2
  | none => []

/-- The sort key `len(k.split())` used to order folded keys. -/
def keyWords (k : Str) : Nat := (pySplit k).length

/-- Stable insertion of a key into a list sorted by descending word
count. -/
def insertKeyByWords (k : Str) : List Str → List Str
  | [] => [k]
  | k' :: rest =>
    if keyWords k' ≤ keyWords k then k :: k' :: rest
    else k' :: insertKeyByWords k rest

/-- Models `sorted(keys, key=lambda k: len(k.split()), reverse=True)`:
a stable sort by descending word count. -/
def sortKeysByWords (ks : List Str) : List Str := ks.foldr insertKeyByWords []

/-- The folded-index keys of `find_matches`, in match priority order. -/
def keysOf (idx : Index) : List Str :=
  sortKeysByWords ((foldIndex idx).map (fun e => e.1))

/-- Matches the tail `\s+gibi\s+hisset` of the similative pattern at the
start of the string. -/
def matchGibiTail (s : Str) : Bool :=
  let w1 := s.takeWhile isWsChar
  if w1.isEmpty then false
  else
    let s1 := s.drop w1.length
    if (chars ("gibi")).isPrefixOf s1 then
      let s2 := s1.drop 4
      let w2 := s2.takeWhile isWsChar
      if w2.isEmpty then false
      else (chars ("hisset")).isPrefixOf (s2.drop w2.length)
    else false

/-- Tries the pattern `([\w...]+)\s+gibi\s+hisset` at the start of the
string, returning the captured word.  Maximal-run scanning is equivalent
to the regex semantics here because the word class, the whitespace class
and the literal heads are mutually disjoint. -/
def parseGibiAt (s : Str) : Option Str :=
  let run := s.takeWhile isWordChar
  if run.isEmpty then none
  else if matchGibiTail (s.drop run.length) then some run else none

/-- Models `re.search` of the similative pattern: the leftmost match. -/
def searchGibi : Str → Option Str
  | [] => none
  | c :: rest =>
    match parseGibiAt (c :: rest) with
    | some w => some w
    | none => searchGibi rest

/-- Models `" ".join(toks)`. -/
def joinSp : List Str → Str
  | [] => []
  | [t] => t
  | t :: rest => t ++ ' ' :: joinSp rest

/-- Embedding of the n-gram generation of `find_matches`: all space-joined
contiguous n-grams for n from `min(max_phr_len, len(toks))` down to 1. -/
def ngramsOf (toks : List Str) (maxPhrLen : Nat) : List Str :=
  ((List.range (min maxPhrLen toks.length)).reverse.map (fun n => n + 1)).flatMap
    (fun n => (List.range (toks.length - n + 1)).map
      (fun i => joinSp ((toks.drop i).take n)))

/-- The token sequence of `find_matches`: the tokens of the folded
normalized text, followed by the folded captured word of the similative
pattern when it matched. -/
def candTokens (text : Str) : List Str :=
  tokenize (fold_tr (normalize_text text)) ++
    ((searchGibi (normalize_text text)).toList.map fold_tr)

/-- The candidate set of `find_matches` (`ngram_set` in the source):
n-grams, stem candidates of every token, and synonym expansions.  The
source keeps these in a set; all uses are membership tests, so a list
with the same members is used. -/
def candidateSet (text : Str) (maxPhrLen : Nat) : List Str :=
  (ngramsOf (candTokens text) maxPhrLen ++
    (candTokens text).flatMap tr_stem_candidates) ++
  (ngramsOf (candTokens text) maxPhrLen ++
    (candTokens text).flatMap tr_stem_candidates).flatMap synLookup

/-- One emission: append the pair to the matches unless its identity was
seen.  The Python identity `f"{ow}::{hash(m)}"` is modeled as the
(word, meaning) pair itself, i.e. the content hash is treated as
injective on meanings, as the specification describes it. -/
def emitStep (st : List (Str × Str) × List (Str × Str)) (p : Str × Str) :
    List (Str × Str) × List (Str × Str) :=
  if p ∈ st.2 then st else (st.1 ++ [p], st.2 ++ [p])

/-- Emits every pair registered under a key. -/
def emitAll (pairs : List (Str × Str))
    (st : List (Str × Str) × List (Str × Str)) :
    List (Str × Str) × List (Str × Str) :=
  pairs.foldl emitStep st

/-- One key of the primary matching loop: skip keys with too many words
or fewer than 2 characters, emit the pairs of keys present in the
candidate set. -/
def primStep (fidx : Index) (cands : List Str) (maxPhrLen : Nat)
    (st : List (Str × Str) × List (Str × Str)) (k : Str) :
    List (Str × Str) × List (Str × Str) :=
  if maxPhrLen < keyWords k then st
  else if k.length < 2 then st
  else if k ∈ cands then emitAll (lookupIdx fidx k) st
  else st

/-- One key of the substring fallback loop: single-word keys of length
at least 4 occurring as a substring of the folded normalized text. -/
def fbStep (fidx : Index) (ntextF : Str)
    (st : List (Str × Str) × List (Str × Str)) (k : Str) :
    List (Str × Str) × List (Str × Str) :=
  if keyWords k = 1 ∧ 4 ≤ k.length then
    (if pyInStr k ntextF then emitAll (lookupIdx fidx k) st else st)
  else st

/-- The primary n-gram/stem/synonym stage of `find_matches`: the matches
and the seen set after the first loop. -/
def primaryStage (text : Str) (idx : Index) (maxPhrLen : Nat) :
    List (Str × Str) × List (Str × Str) :=
  (keysOf idx).foldl
    (primStep (foldIndex idx) (candidateSet text maxPhrLen) maxPhrLen) ([], [])

/-- The substring fallback stage of `find_matches`, continuing from the
state of the primary stage. -/
def fallbackStage (text : Str) (idx : Index)
    (st : List (Str × Str) × List (Str × Str)) :
    List (Str × Str) × List (Str × Str) :=
  (keysOf idx).foldl (fbStep (foldIndex idx) (fold_tr (normalize_text text))) st

/-- Embedding of `find_matches`: the primary stage, then the substring
fallback only when the primary stage produced no matches. -/
def find_matches (text : Str) (idx : Index) (maxPhrLen : Nat) :
    List (Str × Str) :=
  if (primaryStage text idx maxPhrLen).1 = [] then
    (fallbackStage text idx (primaryStage text idx maxPhrLen)).1
  else (primaryStage text idx maxPhrLen).1

/-- Emission step annotated with the emitting key (proof artifact used
to state the ordering guarantee of `find_matches`). -/
def emitStepA (k : Str) (st : List (Str × Str × Str) × List (Str × Str))
    (p : Str × Str) : List (Str × Str × Str) × List (Str × Str) :=
  if p ∈ st.2 then st else (st.1 ++ [(k, p)], st.2 ++ [p])

/-- Annotated emission of every pair registered under a key. -/
def emitAllA (k : Str) (pairs : List (Str × Str))
    (st : List (Str × Str × Str) × List (Str × Str)) :
    List (Str × Str × Str) × List (Str × Str) :=
  pairs.foldl (emitStepA k) st

/-- Annotated variant of `primStep`. -/
def primStepA (fidx : Index) (cands : List Str) (maxPhrLen : Nat)
    (st : List (Str × Str × Str) × List (Str × Str)) (k : Str) :
    List (Str × Str × Str) × List (Str × Str) :=
  if maxPhrLen < keyWords k then st
  else if k.length < 2 then st
  else if k ∈ cands then emitAllA k (lookupIdx fidx k) st
  else st

/-- Annotated variant of `fbStep`. -/
def fbStepA (fidx : Index) (ntextF : Str)
    (st : List (Str × Str × Str) × List (Str × Str)) (k : Str) :
    List (Str × Str × Str) × List (Str × Str) :=
  if keyWords k = 1 ∧ 4 ≤ k.length then
    (if pyInStr k ntextF then emitAllA k (lookupIdx fidx k) st else st)
  else st

/-- Annotated variant of `primaryStage`. -/
def primaryStageA (text : Str) (idx : Index) (maxPhrLen : Nat) :
    List (Str × Str × Str) × List (Str × Str) :=
  (keysOf idx).foldl
    (primStepA (foldIndex idx) (candidateSet text maxPhrLen) maxPhrLen) ([], [])

/-- Annotated variant of `fallbackStage`. -/
def fallbackStageA (text : Str) (idx : Index)
    (st : List (Str × Str × Str) × List (Str × Str)) :
    List (Str × Str × Str) × List (Str × Str) :=
  (keysOf idx).foldl (fbStepA (foldIndex idx) (fold_tr (normalize_text text))) st

/-- Variant of `find_matches` in which every emitted pair is annotated
with the folded key that first emitted it. -/
def find_matches_annotated (text : Str) (idx : Index) (maxPhrLen : Nat) :
    List (Str × Str × Str) :=
  if (primaryStageA text idx maxPhrLen).1 = [] then
    (fallbackStageA text idx (primaryStageA text idx maxPhrLen)).1
  else (primaryStageA text idx maxPhrLen).1

/-- Embedding of the positive keyword set `POS_WORDS`. -/
def POS_WORDS : List Str :=
  [chars ("hayır"), chars ("hayra"), chars ("müjde"), chars ("sevinç"),
   chars ("ferah"), chars ("bereket"), chars ("rızık"), chars ("nimet"),
   chars ("afiyet"), chars ("şifa"), chars ("başarı"),
   chars ("muvaffakiyet"), chars ("izzet"), chars ("şeref"), chars ("refah")]

/-- Embedding of the negative keyword set `NEG_WORDS`. -/
def NEG_WORDS : List Str :=
  [chars ("keder"), chars ("üzüntü"), chars ("musibet"), chars ("hastalık"),
   chars ("zarar"), chars ("kötü"), chars ("belâ"), chars ("tehlike"),
   chars ("kaygı"), chars ("sıkıntı"), chars ("düşman"), chars ("fitne"),
   chars ("yoksulluk"), chars ("hüzün"), chars ("felâket")]

/-- The positive keyword count of `sentiment_hint` (substring tests). -/
def posCount (n : Str) : Nat := POS_WORDS.countP (fun w => pyInStr w n)

/-- The negative keyword count of `sentiment_hint` (substring tests). -/
def negCount (n : Str) : Nat := NEG_WORDS.countP (fun w => pyInStr w n)

/-- Embedding of `sentiment_hint`. -/
def sentiment_hint (meaning : Str) : Str :=
  if negCount (normalize_text meaning) < posCount (normalize_text meaning) ∧
      0 < posCount (normalize_text meaning) then chars ("olumlu")
  else if posCount (normalize_text meaning) < negCount (normalize_text meaning) ∧
      0 < negCount (normalize_text meaning) then chars ("olumsuz")
  else chars ("nötr/karışık")

/-- Model of a JSON scalar value as it comes out of `json.load`. -/
inductive JVal where
  | jstr (s : Str)
  | jnum (n : Int)
  | jbool (b : Bool)
  | jnull
deriving DecidableEq

/-- Model of one dataset row: the two fields `row.get` reads, each
possibly missing. -/
structure JRow where
  word : Option JVal
  meaning : Option JVal
deriving DecidableEq

/-- A cleaned dataset entry. -/
structure Entry where
  word : Str
  meaning : Str
deriving DecidableEq

/-- The per-row filter of `load_dataset`: keep the row exactly when both
fields are present and are strings, storing the stripped values. -/
def cleanRow (row : JRow) : Option Entry :=
  match row.word, row.meaning with
  | some (JVal.jstr w), some (JVal.jstr m) => some ⟨pyStrip w, pyStrip m⟩
  | _, _ => none

/-- Embedding of `load_dataset` (after `json.load` produced the rows). -/
def load_dataset (data : List JRow) : List Entry := data.filterMap cleanRow

/-- Proof artifact: a character that every stage of `fold_tr` leaves
unchanged. -/
def foldFixedChar (c : Char) : Bool :=
  pyCasefoldChar c == [c] && trTrans c == c && nfdChar c == [c] && !(isMnChar c)

/-- Proof artifact: the first character, if any, is not whitespace. -/
def headNonWs (l : Str) : Bool :=
  match l.head? with
  | none => true
  | some c => !(isWsChar c)

/-- Proof artifact: the last character, if any, is not whitespace. -/
def lastNonWs (l : Str) : Bool :=
  match l.getLast? with
  | none => true
  | some c => !(isWsChar c)

/-- Proof artifact: whitespace is canonical — every whitespace character
is a space and no two whitespace characters are adjacent.  This is the
shape of the output of `collapseWs`. -/
def wsCanon (l : Str) : Prop :=
  (∀ c ∈ l, isWsChar c = true → c = ' ') ∧
  List.Chain' (fun a b => ¬(isWsChar a = true ∧ isWsChar b = true)) l

/-- Proof artifact: no two adjacent characters compose; the shape of
canonically composed text. -/
def composedChain (l : Str) : Prop :=
  List.Chain' (fun a b => composePair a b = none) l

/-- Proof artifact: executable form of `composedChain`, used so that the
finite table facts can be settled by evaluation. -/
def chainNoneB : Str → Bool
  | [] => true
  | [_] => true
  | a :: b :: t => composePair a b == none && chainNoneB (b :: t)

example : normalize_text (chars ("  Rüyamda   YILAN ")) = chars ("rüyamda yilan") := by decide
example : chars ("savasmak") ∈ tr_stem_candidates (chars ("savasiyordu")) := by decide
example : chars ("savasimek") ∈ tr_stem_candidates (chars ("savasiyordu")) := by decide
example : chars ("savas") ∈ tr_stem_candidates (chars ("savasiyordu")) := by decide
example :
    find_matches (chars ("Rüyamda yılan gördüm"))
      [(chars ("yılan"), [(chars ("YILAN"), chars ("korku"))])] 5 =
      [(chars ("YILAN"), chars ("korku"))] := by decide
example :
    find_matches (chars ("xruyax"))
      [(chars ("rüya"), [(chars ("RÜYA"), chars ("m"))])] 5 =
      [(chars ("RÜYA"), chars ("m"))] := by decide
example : sentiment_hint (chars ("Bereket ve şifa")) = chars ("olumlu") := by decide
example : sentiment_hint (chars ("hastalık")) = chars ("olumsuz") := by decide
example : sentiment_hint (chars ("deniz")) = chars ("nötr/karışık") := by decide
example : fold_tr (chars ("Şekerli   ÇAY")) = chars ("sekerli cay") := by decide
example : fold_tr (chars ("İSTANBUL")) = fold_tr (chars ("istanbul")) := by decide
example : tokenize (chars ("yılan, deniz!")) = [chars ("yılan"), chars ("deniz")] := by decide
example : pySplit (chars (" ada tavşanı ")) = [chars ("ada"), chars ("tavşanı")] := by decide

/-! Section: Generic list facts -/

theorem flatMap_id_of (f : Char → Str) (l : Str) (h : ∀ c ∈ l, f c = [c]) :
    l.flatMap f = l := by
  induction l with
  | nil => rfl
  | cons c rest ih =>
    simp only [List.flatMap_cons]
    rw [h c (by simp), ih (fun d hd => h d (by simp [hd]))]
    simp

theorem map_id_of (f : Char → Char) (l : Str) (h : ∀ c ∈ l, f c = c) :
    l.map f = l := by
  induction l with
  | nil => rfl
  | cons c rest ih =>
    simp only [List.map_cons]
    rw [h c (by simp), ih (fun d hd => h d (by simp [hd]))]

/-! Section: Character-table facts -/

theorem nfdTable_spec :
    ∀ e ∈ nfdTable,
      nfdChar e.2.1 = [e.2.1] ∧ nfdChar e.2.2 = [e.2.2] ∧
      composePair e.2.1 e.2.2 = some e.1 ∧ nfdChar e.1 = [e.2.1, e.2.2] ∧
      isMnChar e.2.2 = true ∧ isMnChar e.2.1 = false ∧ isMnChar e.1 = false := by
  decide

theorem nfdTable_values_not_bases :
    ∀ e ∈ nfdTable, ∀ e' ∈ nfdTable, e.1 ≠ e'.2.1 := by decide

theorem nfdChar_cases (c : Char) :
    nfdChar c = [c] ∨ ∃ e ∈ nfdTable, e.1 = c ∧ nfdChar c = [e.2.1, e.2.2] := by
  cases h : nfdTable.find? (fun e => e.1 == c) with
  | none => left; simp [nfdChar, h]
  | some e =>
    right
    refine ⟨e, List.mem_of_find?_eq_some h, ?_, by simp [nfdChar, h]⟩
    have hp := List.find?_some h
    simpa using hp

theorem nfdChar_out_fixed {c d : Char} (hd : d ∈ nfdChar c) : nfdChar d = [d] := by
  rcases nfdChar_cases c with h | ⟨e, he, _, h⟩
  · rw [h] at hd
    simp at hd
    subst hd
    exact h
  · rw [h] at hd
    simp at hd
    rcases hd with rfl | rfl
    · exact (nfdTable_spec e he).1
    · exact (nfdTable_spec e he).2.1

theorem nfdChar_ne_nil (c : Char) : nfdChar c ≠ [] := by
  rcases nfdChar_cases c with h | ⟨e, _, _, h⟩ <;> simp [h]

theorem composePair_some_spec {b m c : Char} (h : composePair b m = some c) :
    nfdChar c = [b, m] ∧ nfdChar b = [b] ∧ nfdChar m = [m] ∧
    isMnChar m = true ∧ isMnChar b = false ∧ isMnChar c = false := by
  unfold composePair at h
  cases hf : composeTable.find? (fun e => e.1.1 == b && e.1.2 == m) with
  | none => rw [hf] at h; cases h
  | some e =>
    rw [hf] at h
    simp only [Option.some.injEq] at h
    have hm := List.mem_of_find?_eq_some hf
    have hp := List.find?_some hf
    simp only [Bool.and_eq_true, beq_iff_eq] at hp
    unfold composeTable at hm
    obtain ⟨d, hd, hde⟩ := List.mem_map.mp hm
    obtain ⟨hb, hmm⟩ := hp
    have h1 : d.2.1 = b := by rw [← hde] at hb; exact hb
    have h2 : d.2.2 = m := by rw [← hde] at hmm; exact hmm
    have h3 : d.1 = c := by rw [← hde] at h; exact h
    obtain ⟨f1, f2, _, f4, f5, f6, f7⟩ := nfdTable_spec d hd
    subst h1 h2 h3
    exact ⟨f4, f1, f2, f5, f6, f7⟩

theorem composePair_composed_none {b m c : Char} (h : composePair b m = some c)
    (x : Char) : composePair c x = none := by
  unfold composePair at h
  cases hf : composeTable.find? (fun e => e.1.1 == b && e.1.2 == m) with
  | none => rw [hf] at h; cases h
  | some e =>
    rw [hf] at h
    simp only [Option.some.injEq] at h
    have hm := List.mem_of_find?_eq_some hf
    unfold composeTable at hm
    obtain ⟨d, hd, hde⟩ := List.mem_map.mp hm
    have h3 : d.1 = c := by rw [← hde] at h; exact h
    unfold composePair
    rw [List.find?_eq_none.mpr]
    intro ct hct
    unfold composeTable at hct
    obtain ⟨d', hd', hde'⟩ := List.mem_map.mp hct
    simp only [Bool.and_eq_true, beq_iff_eq, not_and]
    intro hcb _
    rw [← hde'] at hcb
    exact absurd (h3 ▸ hcb.symm) (nfdTable_values_not_bases d hd d' hd')

theorem composePair_none_of_not_mark {b m : Char} (h : isMnChar m = false) :
    composePair b m = none := by
  unfold composePair
  rw [List.find?_eq_none.mpr]
  intro ct hct
  unfold composeTable at hct
  obtain ⟨d', hd', hde'⟩ := List.mem_map.mp hct
  simp only [Bool.and_eq_true, beq_iff_eq, not_and]
  intro _ hcm
  rw [← hde'] at hcm
  have := (nfdTable_spec d' hd').2.2.2.2.1
  rw [hcm, h] at this
  cases this

theorem composePair_some_mem {b m c : Char} (h : composePair b m = some c) :
    ∃ ct ∈ composeTable, ct.1.1 = b ∧ ct.1.2 = m ∧ ct.2 = c := by
  unfold composePair at h
  cases hf : composeTable.find? (fun e => e.1.1 == b && e.1.2 == m) with
  | none => rw [hf] at h; cases h
  | some e =>
    rw [hf] at h
    simp only [Option.some.injEq] at h
    have hp := List.find?_some hf
    simp only [Bool.and_eq_true, beq_iff_eq] at hp
    exact ⟨e, List.mem_of_find?_eq_some hf, hp.1, hp.2, h⟩

theorem nfdTable_ws_spec :
    ∀ e ∈ nfdTable,
      isWsChar e.1 = false ∧ isWsChar e.2.1 = false ∧ isWsChar e.2.2 = false := by
  decide

theorem composePair_space (y : Char) : composePair ' ' y = none := by
  cases hcp : composePair ' ' y with
  | none => rfl
  | some z =>
    exfalso
    obtain ⟨ct, hct, h1, _, _⟩ := composePair_some_mem hcp
    unfold composeTable at hct
    obtain ⟨d, hd, hde⟩ := List.mem_map.mp hct
    have := (nfdTable_ws_spec d hd).2.1
    rw [← hde] at h1
    simp at h1
    rw [h1] at this
    cases this

/-! Section: Composition-pass facts -/

theorem nfd_cons (c : Char) (l : Str) : nfd (c :: l) = nfdChar c ++ nfd l := by
  simp [nfd]

theorem nfd_nfcAux (b : Char) (l : Str) : nfd (nfcAux b l) = nfdChar b ++ nfd l := by
  induction l generalizing b with
  | nil => simp [nfcAux, nfd]
  | cons m rest ih =>
    cases hc : composePair b m with
    | some c =>
      obtain ⟨h1, h2, h3, _, _, _⟩ := composePair_some_spec hc
      simp only [nfcAux, hc]
      rw [ih, h1, nfd_cons, h3, h2]
      simp
    | none =>
      simp only [nfcAux, hc]
      rw [nfd_cons, nfd_cons, ih]

theorem nfd_nfcRun (l : Str) : nfd (nfcRun l) = nfd l := by
  cases l with
  | nil => rfl
  | cons c rest =>
    show nfd (nfcAux c rest) = nfd (c :: rest)
    rw [nfd_nfcAux, nfd_cons]

theorem nfd_idem (l : Str) : nfd (nfd l) = nfd l := by
  apply flatMap_id_of
  intro d hd
  unfold nfd at hd
  obtain ⟨c, _, hdc⟩ := List.mem_flatMap.mp hd
  exact nfdChar_out_fixed hdc

theorem nfkcStr_idem (l : Str) : nfkcStr (nfkcStr l) = nfkcStr l := by
  unfold nfkcStr
  rw [nfd_nfcRun, nfd_idem]

theorem nfcAux_cons_head (m : Char) (rest : Str) :
    ∃ h t, nfcAux m rest = h :: t ∧ (h = m ∨ isMnChar h = false) := by
  cases rest with
  | nil => exact ⟨m, [], rfl, Or.inl rfl⟩
  | cons m2 r2 =>
    cases hc : composePair m m2 with
    | some c2 =>
      have hspec := composePair_some_spec hc
      have hnone := composePair_composed_none hc
      cases r2 with
      | nil => exact ⟨c2, [], by simp [nfcAux, hc], Or.inr hspec.2.2.2.2.2⟩
      | cons h2 t2 =>
        refine ⟨c2, nfcAux h2 t2, ?_, Or.inr hspec.2.2.2.2.2⟩
        simp [nfcAux, hc, hnone h2]
    | none => exact ⟨m, nfcAux m2 r2, by simp [nfcAux, hc], Or.inl rfl⟩

theorem chain_nfcAux (b : Char) (l : Str) : composedChain (nfcAux b l) := by
  induction l generalizing b with
  | nil => simp [nfcAux, composedChain]
  | cons m rest ih =>
    cases hc : composePair b m with
    | some c =>
      have := ih c
      simpa [nfcAux, hc] using this
    | none =>
      simp only [nfcAux, hc]
      unfold composedChain at ih ⊢
      rw [List.chain'_cons']
      refine ⟨?_, ih m⟩
      intro y hy
      obtain ⟨h, t, heq, hcase⟩ := nfcAux_cons_head m rest
      rw [heq] at hy
      simp at hy
      subst hy
      rcases hcase with rfl | hmn
      · exact hc
      · exact composePair_none_of_not_mark hmn

theorem chain_nfcRun (l : Str) : composedChain (nfcRun l) := by
  cases l with
  | nil => simp [nfcRun, composedChain]
  | cons c rest => exact chain_nfcAux c rest

theorem nfd_cons_head (hd : Char) (tl : Str) :
    ∃ h t, nfd (hd :: tl) = h :: t ∧ (h = hd ∨ isMnChar h = false) := by
  rcases nfdChar_cases hd with h1 | ⟨e, he, _, h1⟩
  · exact ⟨hd, nfd tl, by rw [nfd_cons, h1]; rfl, Or.inl rfl⟩
  · exact ⟨e.2.1, e.2.2 :: nfd tl, by rw [nfd_cons, h1]; rfl,
      Or.inr (nfdTable_spec e he).2.2.2.2.2.1⟩

theorem nfcAux_eq_cons_of_head_none {c : Char} {u : Str}
    (h : ∀ y t, u = y :: t → composePair c y = none) :
    nfcAux c u = c :: nfcRun u := by
  cases u with
  | nil => simp [nfcAux, nfcRun]
  | cons y t => simp [nfcAux, nfcRun, h y t rfl]

theorem nfkc_fixed_of_chain {l : Str} (h : composedChain l) : nfkcStr l = l := by
  induction l with
  | nil => rfl
  | cons c rest ih =>
    unfold composedChain at h
    rw [List.chain'_cons'] at h
    obtain ⟨hhead, htail⟩ := h
    have ihr : nfcRun (nfd rest) = rest := ih htail
    have hkey : ∀ y t, nfd rest = y :: t → composePair c y = none := by
      intro y t hyt
      cases rest with
      | nil => simp [nfd] at hyt
      | cons r rtl =>
        obtain ⟨h', t', heq, hcase⟩ := nfd_cons_head r rtl
        rw [heq] at hyt
        injection hyt with hy _
        rcases hcase with h2 | hmn
        · exact hy ▸ h2 ▸ hhead r (by simp)
        · exact hy ▸ composePair_none_of_not_mark hmn
    show nfcRun (nfd (c :: rest)) = c :: rest
    rcases nfdChar_cases c with h1 | ⟨e, he, hec, h1⟩
    · rw [nfd_cons, h1]
      show nfcAux c (nfd rest) = c :: rest
      rw [nfcAux_eq_cons_of_head_none hkey, ihr]
    · have hcomp : composePair e.2.1 e.2.2 = some e.1 := (nfdTable_spec e he).2.2.1
      rw [nfd_cons, h1]
      show nfcAux e.2.1 (e.2.2 :: nfd rest) = c :: rest
      simp only [nfcAux, hcomp]
      rw [hec, nfcAux_eq_cons_of_head_none hkey, ihr]

/-! Section: Case-folding facts -/

theorem casefoldTable_spec :
    ∀ e ∈ casefoldTable,
      e.2 ≠ [] ∧ (∀ d ∈ e.2, pyCasefoldChar d = [d]) ∧
      chainNoneB e.2 = true ∧
      isMnChar (e.2.headD 'x') = false ∧
      isWsChar e.1 = false ∧ (∀ d ∈ e.2, isWsChar d = false) := by
  decide

theorem casefold_boundary :
    ∀ e ∈ casefoldTable, ∀ ct ∈ composeTable,
      ct.1.1 = e.2.getLastD 'x' → composePair e.1 ct.1.2 ≠ none := by
  decide

theorem chainNoneB_chain : ∀ {l : Str}, chainNoneB l = true →
    List.Chain' (fun a b => composePair a b = none) l
  | [], _ => List.chain'_nil
  | [_], _ => List.chain'_singleton _
  | a :: b :: t, h => by
    simp only [chainNoneB, Bool.and_eq_true, beq_iff_eq] at h
    exact List.chain'_cons.mpr ⟨h.1, chainNoneB_chain h.2⟩

theorem pyCasefoldChar_cases (c : Char) :
    pyCasefoldChar c = [c] ∨
      ∃ e ∈ casefoldTable, e.1 = c ∧ pyCasefoldChar c = e.2 := by
  cases h : casefoldTable.find? (fun e => e.1 == c) with
  | none => left; simp [pyCasefoldChar, h]
  | some e =>
    right
    refine ⟨e, List.mem_of_find?_eq_some h, ?_, by simp [pyCasefoldChar, h]⟩
    have hp := List.find?_some h
    simpa using hp

theorem pyCasefoldChar_ne_nil (c : Char) : pyCasefoldChar c ≠ [] := by
  rcases pyCasefoldChar_cases c with h | ⟨e, he, _, h⟩
  · simp [h]
  · rw [h]; exact (casefoldTable_spec e he).1

theorem pyCasefoldChar_out_fixed {c d : Char} (h : d ∈ pyCasefoldChar c) :
    pyCasefoldChar d = [d] := by
  rcases pyCasefoldChar_cases c with h1 | ⟨e, he, _, h1⟩
  · rw [h1] at h; simp at h; subst h; exact h1
  · rw [h1] at h; exact (casefoldTable_spec e he).2.1 d h

theorem pyCasefold_cons (c : Char) (l : Str) :
    pyCasefold (c :: l) = pyCasefoldChar c ++ pyCasefold l := by
  simp [pyCasefold]

theorem pyCasefoldChar_mark_head {r : Char}
    (h : isMnChar ((pyCasefoldChar r).headD 'x') = true) :
    pyCasefoldChar r = [r] := by
  rcases pyCasefoldChar_cases r with h1 | ⟨e, he, _, h1⟩
  · exact h1
  · rw [h1] at h
    have := (casefoldTable_spec e he).2.2.2.1
    rw [h] at this
    cases this

theorem chain_pyCasefold {u : Str} (h : composedChain u) :
    composedChain (pyCasefold u) := by
  induction u with
  | nil => simp [pyCasefold, composedChain]
  | cons c rest ih =>
    unfold composedChain at h ih ⊢
    rw [List.chain'_cons'] at h
    rw [pyCasefold_cons, List.chain'_append]
    refine ⟨?_, ih h.2, ?_⟩
    · rcases pyCasefoldChar_cases c with h1 | ⟨e, he, _, h1⟩
      · simp [h1]
      · rw [h1]; exact chainNoneB_chain (casefoldTable_spec e he).2.2.1
    · intro x hx y hy
      cases rest with
      | nil => simp [pyCasefold] at hy
      | cons r r2 =>
        rw [pyCasefold_cons] at hy
        cases hcf : pyCasefoldChar r with
        | nil => exact absurd hcf (pyCasefoldChar_ne_nil r)
        | cons d ds =>
          rw [hcf] at hy
          simp at hy
          subst hy
          by_cases hmn : isMnChar d = true
          · have hr : pyCasefoldChar r = [r] :=
              pyCasefoldChar_mark_head (by rw [hcf]; simpa)
            rw [hr] at hcf
            injection hcf with h2 _
            have hcr : composePair c r = none := h.1 r (by simp)
            rcases pyCasefoldChar_cases c with h1 | ⟨e, he, hce, h1⟩
            · rw [h1] at hx
              simp at hx
              subst hx
              exact h2 ▸ hcr
            · cases hcp : composePair x d with
              | none => rfl
              | some z =>
                exfalso
                obtain ⟨ct, hct, hb, hm2, _⟩ := composePair_some_mem hcp
                have hlast : x = e.2.getLastD 'x' := by
                  rw [h1] at hx
                  cases hgl : (e.2).getLast? with
                  | none => rw [hgl] at hx; cases hx
                  | some v =>
                    rw [hgl] at hx
                    simp at hx
                    subst hx
                    rw [List.getLastD_eq_getLast?, hgl]
                    rfl
                have := casefold_boundary e he ct hct (by rw [hb, hlast])
                apply this
                rw [hm2, hce, ← h2]
                exact hcr
          · exact composePair_none_of_not_mark (by simpa using hmn)

theorem chain_collapseWsAux {u : Str} (h : composedChain u) :
    ∀ flag, composedChain (collapseWsAux flag u) := by
  induction u with
  | nil => intro flag; simp [collapseWsAux, composedChain]
  | cons c rest ih =>
    intro flag
    unfold composedChain at h ih ⊢
    rw [List.chain'_cons'] at h
    by_cases hws : isWsChar c = true
    · cases flag with
      | true =>
        simp only [collapseWsAux, hws, if_true]
        exact ih h.2 true
      | false =>
        simp only [collapseWsAux, hws, if_true]
        simp only [Bool.false_eq_true, if_false]
        rw [List.chain'_cons']
        exact ⟨fun y _ => composePair_space y, ih h.2 true⟩
    · simp only [collapseWsAux, hws, Bool.false_eq_true, if_false]
      rw [List.chain'_cons']
      refine ⟨?_, ih h.2 false⟩
      intro y hy
      cases rest with
      | nil => simp [collapseWsAux] at hy
      | cons d r2 =>
        by_cases hwd : isWsChar d = true
        · have hy2 : y = ' ' := by
            simp [collapseWsAux, hwd] at hy
            exact hy.symm
          subst hy2
          exact composePair_none_of_not_mark (by decide)
        · have hy2 : y = d := by
            simp [collapseWsAux, hwd] at hy
            exact hy.symm
          subst hy2
          exact h.1 y (by simp)

theorem chain_collapseWs {u : Str} (h : composedChain u) :
    composedChain (collapseWs u) :=
  chain_collapseWsAux h false

theorem dropTrailingWs_pre (l : Str) : ∃ t, dropTrailingWs l ++ t = l := by
  induction l with
  | nil => exact ⟨[], rfl⟩
  | cons c rest ih =>
    obtain ⟨t, ht⟩ := ih
    cases hr : dropTrailingWs rest with
    | nil =>
      by_cases hws : isWsChar c = true
      · exact ⟨c :: rest, by simp [dropTrailingWs, hr, hws]⟩
      · exact ⟨rest, by simp [dropTrailingWs, hr, hws]⟩
    | cons a as =>
      rw [hr] at ht
      refine ⟨t, ?_⟩
      simp only [dropTrailingWs, hr]
      simpa using ht

theorem chain_pyStrip {u : Str} (h : composedChain u) :
    composedChain (pyStrip u) := by
  unfold composedChain at h ⊢
  have h1 := List.Chain'.suffix h (List.dropWhile_suffix isWsChar)
  obtain ⟨t, ht⟩ := dropTrailingWs_pre (u.dropWhile isWsChar)
  unfold pyStrip
  rw [← ht] at h1
  exact (List.chain'_append.mp h1).1

theorem mem_collapseWsAux {c : Char} :
    ∀ (u : Str) (flag : Bool), c ∈ collapseWsAux flag u → c ∈ u ∨ c = ' ' := by
  intro u
  induction u with
  | nil => intro flag h; simp [collapseWsAux] at h
  | cons d rest ih =>
    intro flag h
    by_cases hws : isWsChar d = true
    · cases flag with
      | true =>
        simp only [collapseWsAux, hws, if_true] at h
        rcases ih true h with h2 | h2
        · exact Or.inl (List.mem_cons_of_mem d h2)
        · exact Or.inr h2
      | false =>
        simp only [collapseWsAux, hws, if_true, Bool.false_eq_true, if_false] at h
        rcases List.mem_cons.mp h with h2 | h2
        · exact Or.inr h2
        · rcases ih true h2 with h3 | h3
          · exact Or.inl (List.mem_cons_of_mem d h3)
          · exact Or.inr h3
    · simp only [collapseWsAux, hws, Bool.false_eq_true, if_false] at h
      rcases List.mem_cons.mp h with h2 | h2
      · exact Or.inl (h2 ▸ List.mem_cons_self d rest)
      · rcases ih false h2 with h3 | h3
        · exact Or.inl (List.mem_cons_of_mem d h3)
        · exact Or.inr h3

theorem mem_collapseWs {c : Char} {u : Str} (h : c ∈ collapseWs u) :
    c ∈ u ∨ c = ' ' :=
  mem_collapseWsAux u false h

theorem mem_pyStrip {c : Char} {u : Str} (h : c ∈ pyStrip u) : c ∈ u := by
  unfold pyStrip at h
  obtain ⟨t, ht⟩ := dropTrailingWs_pre (u.dropWhile isWsChar)
  have h2 : c ∈ u.dropWhile isWsChar := by
    rw [← ht]
    exact List.mem_append_left _ h
  exact (List.dropWhile_suffix isWsChar).sublist.mem h2

/-! Section: The characters of a folded string are fold-fixed -/

theorem trTrans_cases (c : Char) :
    trTrans c = c ∨ ∃ e ∈ trTable, e.1 = c ∧ trTrans c = e.2 := by
  cases h : trTable.find? (fun e => e.1 == c) with
  | none => left; simp [trTrans, h]
  | some e =>
    right
    refine ⟨e, List.mem_of_find?_eq_some h, ?_, by simp [trTrans, h]⟩
    have hp := List.find?_some h
    simpa using hp

theorem trTable_out_spec :
    ∀ e ∈ trTable, nfdChar e.2 = [e.2] ∧ foldFixedChar e.2 = true := by decide

theorem nfdTable_keys_handled :
    ∀ e ∈ nfdTable, pyCasefoldChar e.1 ≠ [e.1] ∨ trTrans e.1 ≠ e.1 := by decide

theorem casefold_out_spec :
    ∀ e ∈ casefoldTable, ∀ d ∈ e.2, ∀ g ∈ nfdChar (trTrans d),
      isMnChar g = true ∨ foldFixedChar g = true := by decide

theorem fold_pipeline_char {a0 a g : Char} (ha : a ∈ pyCasefoldChar a0)
    (hg : g ∈ nfdChar (trTrans a)) :
    isMnChar g = true ∨ foldFixedChar g = true := by
  rcases pyCasefoldChar_cases a0 with h1 | ⟨e, he, _, h1⟩
  · rw [h1] at ha
    simp at ha
    rw [ha] at hg
    rcases trTrans_cases a0 with h2 | ⟨e2, he2, _, h2⟩
    · rw [h2] at hg
      rcases nfdChar_cases a0 with h3 | ⟨e3, he3, he3c, _⟩
      · rw [h3] at hg
        simp at hg
        subst hg
        by_cases hmn : isMnChar g = true
        · exact Or.inl hmn
        · right
          simp only [foldFixedChar, h1, h2, h3]
          simp [hmn]
      · exfalso
        rcases nfdTable_keys_handled e3 he3 with h4 | h4 <;> rw [he3c] at h4
        · exact h4 h1
        · exact h4 h2
    · rw [h2] at hg
      obtain ⟨hnfd, hfix⟩ := trTable_out_spec e2 he2
      rw [hnfd] at hg
      simp at hg
      subst hg
      exact Or.inr hfix
  · rw [h1] at ha
    exact casefold_out_spec e he a ha g hg

theorem fold_s3_chars {x : Str} {g : Char}
    (hg : g ∈ (nfd ((pyCasefold (nfkcStr x)).map trTrans)).filter
      (fun c => !(isMnChar c))) :
    foldFixedChar g = true := by
  rw [List.mem_filter] at hg
  obtain ⟨hg1, hg2⟩ := hg
  unfold nfd at hg1
  obtain ⟨b, hb, hgb⟩ := List.mem_flatMap.mp hg1
  obtain ⟨a, ha, hab⟩ := List.mem_map.mp hb
  unfold pyCasefold at ha
  obtain ⟨a0, _, ha0⟩ := List.mem_flatMap.mp ha
  subst hab
  rcases fold_pipeline_char ha0 hgb with h | h
  · rw [h] at hg2
    cases hg2
  · exact h

/-! Section: Stage fixedness on fold-fixed strings -/

theorem foldFixedChar_spec {c : Char} (h : foldFixedChar c = true) :
    pyCasefoldChar c = [c] ∧ trTrans c = c ∧ nfdChar c = [c] ∧
      isMnChar c = false := by
  unfold foldFixedChar at h
  simp only [Bool.and_eq_true, beq_iff_eq, Bool.not_eq_true'] at h
  exact ⟨h.1.1.1, h.1.1.2, h.1.2, h.2⟩

theorem chain_of_no_marks {u : Str} (h : ∀ c ∈ u, isMnChar c = false) :
    composedChain u := by
  induction u with
  | nil => simp [composedChain]
  | cons c rest ih =>
    unfold composedChain at ih ⊢
    rw [List.chain'_cons']
    refine ⟨?_, ih (fun d hd => h d (List.mem_cons_of_mem c hd))⟩
    intro y hy
    exact composePair_none_of_not_mark
      (h y (List.mem_cons_of_mem c (List.mem_of_mem_head? hy)))

theorem nfkcStr_fixed_of_all {u : Str} (h : ∀ c ∈ u, foldFixedChar c = true) :
    nfkcStr u = u :=
  nfkc_fixed_of_chain (chain_of_no_marks (fun c hc => (foldFixedChar_spec (h c hc)).2.2.2))

theorem pyCasefold_fixed_of_all {u : Str} (h : ∀ c ∈ u, foldFixedChar c = true) :
    pyCasefold u = u :=
  flatMap_id_of _ _ (fun c hc => (foldFixedChar_spec (h c hc)).1)

theorem trMap_fixed_of_all {u : Str} (h : ∀ c ∈ u, foldFixedChar c = true) :
    u.map trTrans = u :=
  map_id_of _ _ (fun c hc => (foldFixedChar_spec (h c hc)).2.1)

theorem nfd_fixed_of_all {u : Str} (h : ∀ c ∈ u, foldFixedChar c = true) :
    nfd u = u :=
  flatMap_id_of _ _ (fun c hc => (foldFixedChar_spec (h c hc)).2.2.1)

theorem filter_mn_fixed_of_all {u : Str} (h : ∀ c ∈ u, foldFixedChar c = true) :
    u.filter (fun c => !(isMnChar c)) = u :=
  List.filter_eq_self.mpr
    (fun c hc => by simp [(foldFixedChar_spec (h c hc)).2.2.2])

theorem fold_tr_out_fixed {x : Str} {c : Char} (hc : c ∈ fold_tr x) :
    foldFixedChar c = true := by
  unfold fold_tr at hc
  have h1 := mem_pyStrip hc
  rcases mem_collapseWs h1 with h2 | h2
  · have hfix : ∀ g ∈ (nfd ((pyCasefold (nfkcStr x)).map trTrans)).filter
        (fun c => !(isMnChar c)), foldFixedChar g = true :=
      fun g hg => fold_s3_chars hg
    have heq : nfcStr ((nfd ((pyCasefold (nfkcStr x)).map trTrans)).filter
        (fun c => !(isMnChar c))) =
        (nfd ((pyCasefold (nfkcStr x)).map trTrans)).filter
          (fun c => !(isMnChar c)) :=
      nfkcStr_fixed_of_all hfix
    rw [heq] at h2
    exact hfix c h2
  · subst h2
    decide

/-! Section: Whitespace canonicalization -/

theorem collapseWsAux_true_head :
    ∀ (u : Str) {y : Char}, (collapseWsAux true u).head? = some y →
      isWsChar y = false := by
  intro u
  induction u with
  | nil => intro y h; simp [collapseWsAux] at h
  | cons c rest ih =>
    intro y h
    by_cases hws : isWsChar c = true
    · simp only [collapseWsAux, hws, if_true] at h
      exact ih h
    · simp only [collapseWsAux] at h
      rw [if_neg hws] at h
      simp only [List.head?_cons, Option.some.injEq] at h
      rw [← h]
      simpa using hws

theorem collapseWsAux_ws_space :
    ∀ (u : Str) (flag : Bool) {c : Char}, c ∈ collapseWsAux flag u →
      isWsChar c = true → c = ' ' := by
  intro u
  induction u with
  | nil => intro flag c h; simp [collapseWsAux] at h
  | cons d rest ih =>
    intro flag c h hc
    by_cases hws : isWsChar d = true
    · cases flag with
      | false =>
        simp only [collapseWsAux, hws, if_true, Bool.false_eq_true, if_false] at h
        rcases List.mem_cons.mp h with h2 | h2
        · exact h2
        · exact ih true h2 hc
      | true =>
        simp only [collapseWsAux, hws, if_true] at h
        exact ih true h hc
    · simp only [collapseWsAux] at h
      rw [if_neg hws] at h
      rcases List.mem_cons.mp h with h2 | h2
      · exact absurd (h2 ▸ hc) hws
      · exact ih false h2 hc

theorem collapseWsAux_chain_ws (u : Str) :
    ∀ flag, List.Chain' (fun a b => ¬(isWsChar a = true ∧ isWsChar b = true))
      (collapseWsAux flag u) := by
  induction u with
  | nil => intro flag; simp [collapseWsAux]
  | cons c rest ih =>
    intro flag
    by_cases hws : isWsChar c = true
    · cases flag with
      | true => simp only [collapseWsAux, hws, if_true]; exact ih true
      | false =>
        simp only [collapseWsAux, hws, if_true, Bool.false_eq_true, if_false]
        rw [List.chain'_cons']
        refine ⟨?_, ih true⟩
        intro y hy hcon
        rw [collapseWsAux_true_head rest hy] at hcon
        cases hcon.2
    · simp only [collapseWsAux]
      rw [if_neg hws]
      rw [List.chain'_cons']
      refine ⟨?_, ih false⟩
      intro y _ hcon
      exact hws hcon.1

theorem collapseWsAux_flag_eq {rest : Str}
    (h : ∀ d ∈ rest.head?, isWsChar d = false) :
    collapseWsAux true rest = collapseWsAux false rest := by
  cases rest with
  | nil => rfl
  | cons d r2 =>
    have hd : isWsChar d = false := h d (by simp)
    simp only [collapseWsAux]
    rw [if_neg (by simp [hd]), if_neg (by simp [hd])]

theorem collapseWsAux_fixed :
    ∀ (u : Str), (∀ c ∈ u, isWsChar c = true → c = ' ') →
      List.Chain' (fun a b => ¬(isWsChar a = true ∧ isWsChar b = true)) u →
      collapseWsAux false u = u := by
  intro u
  induction u with
  | nil => intro _ _; rfl
  | cons c rest ih =>
    intro h1 h2
    rw [List.chain'_cons'] at h2
    have h1' : ∀ d ∈ rest, isWsChar d = true → d = ' ' :=
      fun d hd => h1 d (List.mem_cons_of_mem c hd)
    by_cases hws : isWsChar c = true
    · have hc : c = ' ' := h1 c (List.mem_cons_self c rest) hws
      simp only [collapseWsAux, hws, if_true, Bool.false_eq_true, if_false]
      have hheads : ∀ d ∈ rest.head?, isWsChar d = false := by
        intro d hd
        by_contra hdd
        exact h2.1 d hd ⟨hws, by simpa using hdd⟩
      rw [collapseWsAux_flag_eq hheads, ih h1' h2.2, hc]
    · simp only [collapseWsAux]
      rw [if_neg hws, ih h1' h2.2]

theorem chain_pyStrip_gen {R : Char → Char → Prop} {u : Str}
    (h : List.Chain' R u) : List.Chain' R (pyStrip u) := by
  have h1 := List.Chain'.suffix h (List.dropWhile_suffix isWsChar)
  obtain ⟨t, ht⟩ := dropTrailingWs_pre (u.dropWhile isWsChar)
  unfold pyStrip
  rw [← ht] at h1
  exact (List.chain'_append.mp h1).1

theorem dropWhile_head_false {p : Char → Bool} :
    ∀ {u : Str} {y : Char}, (u.dropWhile p).head? = some y → p y = false := by
  intro u
  induction u with
  | nil => intro y h; simp at h
  | cons c rest ih =>
    intro y h
    rw [List.dropWhile_cons] at h
    by_cases hp : p c = true
    · rw [if_pos hp] at h
      exact ih h
    · rw [if_neg hp] at h
      simp only [List.head?_cons, Option.some.injEq] at h
      rw [← h]
      simpa using hp

theorem dropTrailingWs_head :
    ∀ {v : Str} {y : Char}, (dropTrailingWs v).head? = some y →
      v.head? = some y := by
  intro v
  induction v with
  | nil => intro y h; simp [dropTrailingWs] at h
  | cons c rest ih =>
    intro y h
    cases hr : dropTrailingWs rest with
    | nil =>
      simp only [dropTrailingWs, hr] at h
      by_cases hws : isWsChar c = true
      · rw [if_pos hws] at h
        simp at h
      · rw [if_neg hws] at h
        simp only [List.head?_cons, Option.some.injEq] at h
        simp [h]
    | cons a as =>
      simp only [dropTrailingWs, hr] at h
      simp only [List.head?_cons, Option.some.injEq] at h
      simp [h]

theorem dropTrailingWs_last :
    ∀ {v : Str} {y : Char}, (dropTrailingWs v).getLast? = some y →
      isWsChar y = false := by
  intro v
  induction v with
  | nil => intro y h; simp [dropTrailingWs] at h
  | cons c rest ih =>
    intro y h
    cases hr : dropTrailingWs rest with
    | nil =>
      simp only [dropTrailingWs, hr] at h
      by_cases hws : isWsChar c = true
      · rw [if_pos hws] at h
        simp at h
      · rw [if_neg hws] at h
        simp only [List.getLast?_singleton, Option.some.injEq] at h
        rw [← h]
        simpa using hws
    | cons a as =>
      simp only [dropTrailingWs, hr] at h
      rw [List.getLast?_cons_cons] at h
      rw [← hr] at h
      exact ih h

theorem dropTrailingWs_fixed :
    ∀ {v : Str}, (∀ y, v.getLast? = some y → isWsChar y = false) →
      dropTrailingWs v = v := by
  intro v
  induction v with
  | nil => intro _; rfl
  | cons c rest ih =>
    intro h
    cases rest with
    | nil =>
      have hc := h c (by simp)
      simp [dropTrailingWs, hc]
    | cons d r2 =>
      have h2 : dropTrailingWs (d :: r2) = d :: r2 :=
        ih (fun y hy => h y (by rw [List.getLast?_cons_cons]; exact hy))
      have h3 : dropTrailingWs (c :: d :: r2) =
          match dropTrailingWs (d :: r2) with
          | [] => if isWsChar c = true then [] else [c]
          | r => c :: r := rfl
      rw [h3, h2]

theorem pyStrip_idem (u : Str) : pyStrip (pyStrip u) = pyStrip u := by
  have hhead : ∀ y, (pyStrip u).head? = some y → isWsChar y = false := by
    intro y hy
    unfold pyStrip at hy
    exact dropWhile_head_false (dropTrailingWs_head hy)
  have hlast : ∀ y, (pyStrip u).getLast? = some y → isWsChar y = false := by
    intro y hy
    unfold pyStrip at hy
    exact dropTrailingWs_last hy
  show dropTrailingWs ((pyStrip u).dropWhile isWsChar) = pyStrip u
  have h1 : (pyStrip u).dropWhile isWsChar = pyStrip u := by
    cases hu : pyStrip u with
    | nil => rfl
    | cons c rest =>
      rw [List.dropWhile_cons]
      rw [if_neg ?_]
      have := hhead c (by rw [hu]; rfl)
      simp [this]
  rw [h1]
  exact dropTrailingWs_fixed hlast

theorem fold_tr_fixed_parts {y : Str} (hfix : ∀ c ∈ y, foldFixedChar c = true) :
    fold_tr y = pyStrip (collapseWs y) := by
  unfold fold_tr
  rw [nfkcStr_fixed_of_all hfix, pyCasefold_fixed_of_all hfix,
    trMap_fixed_of_all hfix, nfd_fixed_of_all hfix, filter_mn_fixed_of_all hfix]
  have h : nfcStr y = y := by
    have h2 := nfkcStr_fixed_of_all hfix
    unfold nfkcStr at h2
    unfold nfcStr
    exact h2
  rw [h]

/-- C7: the Turkish folding function `fold_tr` is idempotent: for every
string x, fold(fold(x)) equals fold(x). -/
theorem fold_tr_idempotent (x : Str) : fold_tr (fold_tr x) = fold_tr x := by
  have hfix : ∀ c ∈ fold_tr x, foldFixedChar c = true :=
    fun c hc => fold_tr_out_fixed hc
  rw [fold_tr_fixed_parts hfix]
  have hspace : ∀ c ∈ fold_tr x, isWsChar c = true → c = ' ' := by
    intro c hc hws
    unfold fold_tr at hc
    have h1 := mem_pyStrip hc
    unfold collapseWs at h1
    exact collapseWsAux_ws_space _ false h1 hws
  have hchain : List.Chain' (fun a b => ¬(isWsChar a = true ∧ isWsChar b = true))
      (fold_tr x) := by
    unfold fold_tr
    apply chain_pyStrip_gen
    unfold collapseWs
    exact collapseWsAux_chain_ws _ false
  have hcoll : collapseWs (fold_tr x) = fold_tr x := by
    unfold collapseWs
    exact collapseWsAux_fixed _ hspace hchain
  rw [hcoll]
  show pyStrip (fold_tr x) = fold_tr x
  unfold fold_tr
  exact pyStrip_idem _

/-! Section: Head and last characters through the normalization stages -/

theorem composePair_some_ws {b m c : Char} (h : composePair b m = some c) :
    isWsChar c = false := by
  obtain ⟨ct, hct, _, _, hc⟩ := composePair_some_mem h
  unfold composeTable at hct
  obtain ⟨d, hd, hde⟩ := List.mem_map.mp hct
  have := (nfdTable_ws_spec d hd).1
  rw [← hc, ← hde]
  exact this

theorem nfd_head_ws {v : Str} {y : Char} (h : (nfd v).head? = some y) :
    v.head? = some y ∨ isWsChar y = false := by
  cases v with
  | nil => simp [nfd] at h
  | cons hd tl =>
    rw [nfd_cons] at h
    rcases nfdChar_cases hd with h1 | ⟨e, he, _, h1⟩
    · rw [h1] at h
      simp only [List.cons_append, List.head?_cons, Option.some.injEq] at h
      simp [← h]
    · rw [h1] at h
      simp only [List.cons_append, List.head?_cons, Option.some.injEq] at h
      right
      rw [← h]
      exact (nfdTable_ws_spec e he).2.1

theorem pyCasefold_head_ws {v : Str} {y : Char} (h : (pyCasefold v).head? = some y) :
    v.head? = some y ∨ isWsChar y = false := by
  cases v with
  | nil => simp [pyCasefold] at h
  | cons c rest =>
    rw [pyCasefold_cons] at h
    rcases pyCasefoldChar_cases c with h1 | ⟨e, he, _, h1⟩
    · rw [h1] at h
      simp only [List.cons_append, List.head?_cons, Option.some.injEq] at h
      simp [← h]
    · rw [h1] at h
      cases he2 : e.2 with
      | nil => exact absurd he2 ((casefoldTable_spec e he).1)
      | cons d ds =>
        rw [he2] at h
        simp only [List.cons_append, List.head?_cons, Option.some.injEq] at h
        right
        rw [← h]
        exact (casefoldTable_spec e he).2.2.2.2.2 d (by rw [he2]; simp)

theorem nfcAux_head_ws :
    ∀ (rest : Str) (m y : Char), (nfcAux m rest).head? = some y →
      y = m ∨ (isWsChar y = false ∧ isMnChar y = false) := by
  intro rest
  induction rest with
  | nil =>
    intro m y h
    simp [nfcAux] at h
    simp [h]
  | cons m2 r2 ih =>
    intro m y h
    cases hc : composePair m m2 with
    | some c2 =>
      simp only [nfcAux, hc] at h
      rcases ih c2 y h with h2 | h2
      · right
        rw [h2]
        exact ⟨composePair_some_ws hc, (composePair_some_spec hc).2.2.2.2.2⟩
      · exact Or.inr h2
    | none =>
      simp only [nfcAux, hc] at h
      simp only [List.head?_cons, Option.some.injEq] at h
      simp [← h]

theorem nfcRun_head_ws {v : Str} {y : Char} (h : (nfcRun v).head? = some y) :
    v.head? = some y ∨ isWsChar y = false := by
  cases v with
  | nil => simp [nfcRun] at h
  | cons m rest =>
    rcases nfcAux_head_ws rest m y h with h2 | h2
    · simp [h2]
    · exact Or.inr h2.1

theorem flatMap_getLast? {f : Char → Str} (hne : ∀ c, f c ≠ []) :
    ∀ {v : Str} {lv : Char}, v.getLast? = some lv →
      (v.flatMap f).getLast? = (f lv).getLast? := by
  intro v
  induction v with
  | nil => intro lv h; simp at h
  | cons c rest ih =>
    intro lv h
    cases rest with
    | nil =>
      simp only [List.getLast?_singleton, Option.some.injEq] at h
      subst h
      simp
    | cons d r2 =>
      rw [List.getLast?_cons_cons] at h
      have hr := ih h
      simp only [List.flatMap_cons] at hr ⊢
      rw [List.getLast?_append_of_ne_nil]
      · exact hr
      · intro hnil
        rw [List.append_eq_nil] at hnil
        exact hne d hnil.1

theorem nfd_last_ws {v : Str} {y : Char} (h : (nfd v).getLast? = some y) :
    v.getLast? = some y ∨ isWsChar y = false := by
  cases hv : v.getLast? with
  | none =>
    rw [List.getLast?_eq_none_iff] at hv
    subst hv
    simp [nfd] at h
  | some lv =>
    unfold nfd at h
    rw [flatMap_getLast? nfdChar_ne_nil hv] at h
    rcases nfdChar_cases lv with h1 | ⟨e, he, _, h1⟩
    · rw [h1] at h
      simp only [List.getLast?_singleton, Option.some.injEq] at h
      exact Or.inl (congrArg some h)
    · rw [h1] at h
      simp only [List.getLast?_cons_cons, List.getLast?_singleton,
        Option.some.injEq] at h
      right
      rw [← h]
      exact (nfdTable_ws_spec e he).2.2

theorem pyCasefold_last_ws {v : Str} {y : Char}
    (h : (pyCasefold v).getLast? = some y) :
    v.getLast? = some y ∨ isWsChar y = false := by
  cases hv : v.getLast? with
  | none =>
    rw [List.getLast?_eq_none_iff] at hv
    subst hv
    simp [pyCasefold] at h
  | some lv =>
    unfold pyCasefold at h
    rw [flatMap_getLast? pyCasefoldChar_ne_nil hv] at h
    rcases pyCasefoldChar_cases lv with h1 | ⟨e, he, _, h1⟩
    · rw [h1] at h
      simp only [List.getLast?_singleton, Option.some.injEq] at h
      exact Or.inl (congrArg some h)
    · rw [h1] at h
      right
      have hy : y ∈ e.2 := List.mem_of_mem_getLast? (by rw [h]; rfl)
      exact (casefoldTable_spec e he).2.2.2.2.2 y hy

theorem nfcAux_ne_nil : ∀ (l : Str) (b : Char), nfcAux b l ≠ [] := by
  intro l
  induction l with
  | nil => intro b; simp [nfcAux]
  | cons m rest ih =>
    intro b
    cases hc : composePair b m with
    | some c => simp only [nfcAux, hc]; exact ih c
    | none => simp [nfcAux, hc]

theorem nfcAux_last_ws :
    ∀ (l : Str) (b y : Char), (nfcAux b l).getLast? = some y →
      (b :: l).getLast? = some y ∨ isWsChar y = false := by
  intro l
  induction l with
  | nil =>
    intro b y h
    simp [nfcAux] at h
    simp [h]
  | cons m rest ih =>
    intro b y h
    cases hc : composePair b m with
    | some c =>
      simp only [nfcAux, hc] at h
      rcases ih c y h with h2 | h2
      · cases rest with
        | nil =>
          simp only [List.getLast?_singleton, Option.some.injEq] at h2
          right
          rw [← h2]
          exact composePair_some_ws hc
        | cons d r2 =>
          rw [List.getLast?_cons_cons] at h2
          left
          rw [List.getLast?_cons_cons, List.getLast?_cons_cons]
          exact h2
      · exact Or.inr h2
    | none =>
      simp only [nfcAux, hc] at h
      cases hT : nfcAux m rest with
      | nil => exact absurd hT (nfcAux_ne_nil rest m)
      | cons a as =>
        rw [hT, List.getLast?_cons_cons] at h
        rcases ih m y (by rw [hT]; exact h) with h2 | h2
        · left
          rw [List.getLast?_cons_cons]
          exact h2
        · exact Or.inr h2

theorem nfcRun_last_ws {v : Str} {y : Char} (h : (nfcRun v).getLast? = some y) :
    v.getLast? = some y ∨ isWsChar y = false := by
  cases v with
  | nil => simp [nfcRun] at h
  | cons m rest => exact nfcAux_last_ws rest m y h

theorem collapseWsAux_nil_imp :
    ∀ (u : Str) (flag : Bool), collapseWsAux flag u = [] →
      ∀ c ∈ u, isWsChar c = true := by
  intro u
  induction u with
  | nil => intro flag _ c hc; simp at hc
  | cons d rest ih =>
    intro flag h c hc
    by_cases hws : isWsChar d = true
    · cases flag with
      | true =>
        simp only [collapseWsAux, hws, if_true] at h
        rcases List.mem_cons.mp hc with h2 | h2
        · rw [h2]; exact hws
        · exact ih true h c h2
      | false =>
        simp only [collapseWsAux, hws, if_true, Bool.false_eq_true, if_false] at h
        cases h
    · simp only [collapseWsAux] at h
      rw [if_neg hws] at h
      cases h

theorem collapse_head_ws {u : Str}
    (h : ∀ y, u.head? = some y → isWsChar y = false) :
    ∀ z, (collapseWsAux false u).head? = some z → isWsChar z = false := by
  intro z hz
  cases u with
  | nil => simp [collapseWsAux] at hz
  | cons c rest =>
    have hc := h c rfl
    simp only [collapseWsAux] at hz
    rw [if_neg (by simp [hc])] at hz
    simp only [List.head?_cons, Option.some.injEq] at hz
    rw [← hz]
    exact hc

theorem collapse_last_ws :
    ∀ (u : Str), (∀ y, u.getLast? = some y → isWsChar y = false) →
      ∀ (flag : Bool) (z : Char), (collapseWsAux flag u).getLast? = some z →
        isWsChar z = false := by
  intro u
  induction u with
  | nil => intro _ flag z hz; simp [collapseWsAux] at hz
  | cons c rest ih =>
    intro h flag z hz
    cases rest with
    | nil =>
      have hc := h c (by simp)
      simp only [collapseWsAux] at hz
      rw [if_neg (by simp [hc])] at hz
      simp only [collapseWsAux, List.getLast?_singleton, Option.some.injEq] at hz
      rw [← hz]
      exact hc
    | cons d r2 =>
      have h' : ∀ y, (d :: r2).getLast? = some y → isWsChar y = false := by
        intro y hy
        exact h y (by rw [List.getLast?_cons_cons]; exact hy)
      by_cases hws : isWsChar c = true
      · have hTne : collapseWsAux true (d :: r2) ≠ [] := by
          intro hT
          have hall := collapseWsAux_nil_imp (d :: r2) true hT
          cases hgl : (d :: r2).getLast? with
          | none => rw [List.getLast?_eq_none_iff] at hgl; cases hgl
          | some y =>
            have h1 := h' y hgl
            have h2 := hall y (List.mem_of_mem_getLast? (by rw [hgl]; rfl))
            rw [h1] at h2
            cases h2
        cases hT : collapseWsAux true (d :: r2) with
        | nil => exact absurd hT hTne
        | cons a as =>
          cases flag with
          | true =>
            have e1 : collapseWsAux true (c :: d :: r2) =
                collapseWsAux true (d :: r2) := by
              simp only [collapseWsAux, hws, if_true]
            rw [e1] at hz
            exact ih h' true z hz
          | false =>
            have e1 : collapseWsAux false (c :: d :: r2) =
                ' ' :: collapseWsAux true (d :: r2) := by
              simp only [collapseWsAux, hws, if_true, Bool.false_eq_true,
                if_false]
            rw [e1, hT, List.getLast?_cons_cons] at hz
            exact ih h' true z (by rw [hT]; exact hz)
      · have e1 : collapseWsAux flag (c :: d :: r2) =
            c :: collapseWsAux false (d :: r2) := by
          simp only [collapseWsAux]
          rw [if_neg hws]
        rw [e1] at hz
        cases hT : collapseWsAux false (d :: r2) with
        | nil =>
          rw [hT] at hz
          simp only [List.getLast?_singleton, Option.some.injEq] at hz
          rw [← hz]
          simpa using hws
        | cons a as =>
          rw [hT, List.getLast?_cons_cons] at hz
          exact ih h' false z (by rw [hT]; exact hz)

theorem pyStrip_fixed_of {u : Str}
    (hhead : ∀ y, u.head? = some y → isWsChar y = false)
    (hlast : ∀ y, u.getLast? = some y → isWsChar y = false) :
    pyStrip u = u := by
  unfold pyStrip
  have h1 : u.dropWhile isWsChar = u := by
    cases u with
    | nil => rfl
    | cons c rest =>
      rw [List.dropWhile_cons, if_neg (by simp [hhead c rfl])]
  rw [h1]
  exact dropTrailingWs_fixed hlast

/-- C8: the text normalizer `normalize_text` is idempotent: for every
string x, normalize(normalize(x)) equals normalize(x). -/
theorem normalize_text_idempotent (x : Str) :
    normalize_text (normalize_text x) = normalize_text x := by
  have hw_head : ∀ y, (pyCasefold (nfkcStr (pyStrip x))).head? = some y →
      isWsChar y = false := by
    intro y hy
    rcases pyCasefold_head_ws hy with h1 | h1
    · rcases nfcRun_head_ws h1 with h2 | h2
      · rcases nfd_head_ws h2 with h3 | h3
        · exact dropWhile_head_false (dropTrailingWs_head h3)
        · exact h3
      · exact h2
    · exact h1
  have hw_last : ∀ y, (pyCasefold (nfkcStr (pyStrip x))).getLast? = some y →
      isWsChar y = false := by
    intro y hy
    rcases pyCasefold_last_ws hy with h1 | h1
    · rcases nfcRun_last_ws h1 with h2 | h2
      · rcases nfd_last_ws h2 with h3 | h3
        · exact dropTrailingWs_last h3
        · exact h3
      · exact h2
    · exact h1
  have h1 : pyStrip (normalize_text x) = normalize_text x := by
    apply pyStrip_fixed_of
    · intro y hy
      exact collapse_head_ws hw_head y hy
    · intro y hy
      exact collapse_last_ws _ hw_last false y hy
  have hchain : composedChain (normalize_text x) := by
    unfold normalize_text
    apply chain_collapseWs
    apply chain_pyCasefold
    exact chain_nfcRun _
  have h2 : nfkcStr (normalize_text x) = normalize_text x :=
    nfkc_fixed_of_chain hchain
  have h3 : pyCasefold (normalize_text x) = normalize_text x := by
    apply flatMap_id_of
    intro c hc
    unfold normalize_text collapseWs at hc
    rcases mem_collapseWsAux _ false hc with hm | hm
    · unfold pyCasefold at hm
      obtain ⟨a, _, ha⟩ := List.mem_flatMap.mp hm
      exact pyCasefoldChar_out_fixed ha
    · rw [hm]; decide
  have h4 : collapseWs (normalize_text x) = normalize_text x := by
    unfold collapseWs
    apply collapseWsAux_fixed
    · intro c hc hws
      unfold normalize_text collapseWs at hc
      exact collapseWsAux_ws_space _ false hc hws
    · unfold normalize_text collapseWs
      exact collapseWsAux_chain_ws _ false
  show collapseWs (pyCasefold (nfkcStr (pyStrip (normalize_text x)))) =
    normalize_text x
  rw [h1, h2, h3]
  exact h4

/-! Section: Sentiment tagger -/

/-- C5: for every meaning string, `sentiment_hint` normalizes the text,
counts positive and negative keywords by substring containment, and
returns "olumlu" exactly when the positive count exceeds the negative
count and is positive, "olumsuz" exactly when the negative count exceeds
the positive count and is positive, and "nötr/karışık" otherwise. -/
theorem sentiment_hint_spec (meaning : Str) :
    (sentiment_hint meaning = chars ("olumlu") ↔
      negCount (normalize_text meaning) < posCount (normalize_text meaning) ∧
        0 < posCount (normalize_text meaning)) ∧
    (sentiment_hint meaning = chars ("olumsuz") ↔
      posCount (normalize_text meaning) < negCount (normalize_text meaning) ∧
        0 < negCount (normalize_text meaning)) ∧
    (sentiment_hint meaning = chars ("nötr/karışık") ↔
      ¬(negCount (normalize_text meaning) < posCount (normalize_text meaning) ∧
          0 < posCount (normalize_text meaning)) ∧
      ¬(posCount (normalize_text meaning) < negCount (normalize_text meaning) ∧
          0 < negCount (normalize_text meaning))) := by
  unfold sentiment_hint
  by_cases h1 : negCount (normalize_text meaning) < posCount (normalize_text meaning) ∧
      0 < posCount (normalize_text meaning)
  · rw [if_pos h1]
    refine ⟨⟨fun _ => h1, fun _ => rfl⟩, ?_, ?_⟩
    · constructor
      · intro h; exact absurd h (by decide)
      · intro h2; exact absurd h1 (by omega)
    · constructor
      · intro h; exact absurd h (by decide)
      · intro h2; exact absurd h1 h2.1
  · rw [if_neg h1]
    by_cases h2 : posCount (normalize_text meaning) < negCount (normalize_text meaning) ∧
        0 < negCount (normalize_text meaning)
    · rw [if_pos h2]
      refine ⟨?_, ⟨fun _ => h2, fun _ => rfl⟩, ?_⟩
      · constructor
        · intro h; exact absurd h (by decide)
        · intro h3; exact absurd h3 h1
      · constructor
        · intro h; exact absurd h (by decide)
        · intro h3; exact absurd h2 h3.2
    · rw [if_neg h2]
      refine ⟨?_, ?_, ⟨fun _ => ⟨h1, h2⟩, fun _ => rfl⟩⟩
      · constructor
        · intro h; exact absurd h (by decide)
        · intro h3; exact absurd h3 h1
      · constructor
        · intro h; exact absurd h (by decide)
        · intro h3; exact absurd h3 h2

/-! Section: Dataset loading -/

theorem mem_load_dataset (data : List JRow) (e : Entry) :
    e ∈ load_dataset data ↔
      ∃ row ∈ data, ∃ w m, row.word = some (JVal.jstr w) ∧
        row.meaning = some (JVal.jstr m) ∧ e = ⟨pyStrip w, pyStrip m⟩ := by
  unfold load_dataset
  rw [List.mem_filterMap]
  constructor
  · rintro ⟨row, hrow, hclean⟩
    refine ⟨row, hrow, ?_⟩
    unfold cleanRow at hclean
    split at hclean
    · next w m hw hm =>
      refine ⟨w, m, hw, hm, ?_⟩
      simp only [Option.some.injEq] at hclean
      exact hclean.symm
    · next => cases hclean
  · rintro ⟨row, hrow, w, m, hw, hm, he⟩
    refine ⟨row, hrow, ?_⟩
    unfold cleanRow
    rw [hw, hm, he]

/-- C6 counterexample: a row whose word field is the empty string (and
whose meaning is a non-empty string) is kept by `load_dataset`, and the
resulting entry has an empty word — the claim that only rows with
non-empty fields survive, and that no entry has an empty word, fails. -/
theorem load_dataset_keeps_empty_word :
    load_dataset [⟨some (JVal.jstr []), some (JVal.jstr (chars ("x")))⟩] =
      [⟨[], chars ("x")⟩] := by decide

/-- C6 (amended): `load_dataset` keeps exactly the rows whose word and
meaning fields are both present and are strings — possibly empty — and
silently drops every other row; surviving entries store the stripped
field values. -/
theorem load_dataset_keeps_string_rows (data : List JRow) (e : Entry) :
    e ∈ load_dataset data ↔
      ∃ row ∈ data, ∃ w m, row.word = some (JVal.jstr w) ∧
        row.meaning = some (JVal.jstr m) ∧ e = ⟨pyStrip w, pyStrip m⟩ :=
  mem_load_dataset data e

theorem pyStrip_head_ws (u : Str) :
    ∀ y, (pyStrip u).head? = some y → isWsChar y = false := by
  intro y hy
  unfold pyStrip at hy
  exact dropWhile_head_false (dropTrailingWs_head hy)

theorem pyStrip_last_ws (u : Str) :
    ∀ y, (pyStrip u).getLast? = some y → isWsChar y = false := by
  intro y hy
  unfold pyStrip at hy
  exact dropTrailingWs_last hy

/-- C10: every entry produced by `load_dataset` stores the
whitespace-trimmed source fields, so no returned word or meaning starts
or ends with whitespace. -/
theorem load_dataset_trimmed (data : List JRow) (e : Entry)
    (he : e ∈ load_dataset data) :
    (∃ row ∈ data, ∃ w m, row.word = some (JVal.jstr w) ∧
      row.meaning = some (JVal.jstr m) ∧
      e.word = pyStrip w ∧ e.meaning = pyStrip m) ∧
    (∀ y, e.word.head? = some y → isWsChar y = false) ∧
    (∀ y, e.word.getLast? = some y → isWsChar y = false) ∧
    (∀ y, e.meaning.head? = some y → isWsChar y = false) ∧
    (∀ y, e.meaning.getLast? = some y → isWsChar y = false) := by
  obtain ⟨row, hrow, w, m, hw, hm, he2⟩ := (mem_load_dataset data e).mp he
  subst he2
  exact ⟨⟨row, hrow, w, m, hw, hm, rfl, rfl⟩,
    pyStrip_head_ws w, pyStrip_last_ws w,
    pyStrip_head_ws m, pyStrip_last_ws m⟩

/-- Witness for C10 at a concrete dataset with padded fields. -/
theorem load_dataset_trimmed_witness :
    ((⟨chars ("YILAN"), chars ("korku dolu")⟩ : Entry) ∈
      load_dataset [⟨some (JVal.jstr (chars ("  YILAN "))),
        some (JVal.jstr (chars (" korku dolu ")))⟩]) ∧
    ((∃ row ∈ [(⟨some (JVal.jstr (chars ("  YILAN "))),
        some (JVal.jstr (chars (" korku dolu ")))⟩ : JRow)], ∃ w m,
        row.word = some (JVal.jstr w) ∧ row.meaning = some (JVal.jstr m) ∧
        (⟨chars ("YILAN"), chars ("korku dolu")⟩ : Entry).word = pyStrip w ∧
        (⟨chars ("YILAN"), chars ("korku dolu")⟩ : Entry).meaning = pyStrip m) ∧
      (∀ y, (⟨chars ("YILAN"), chars ("korku dolu")⟩ : Entry).word.head? = some y →
        isWsChar y = false) ∧
      (∀ y, (⟨chars ("YILAN"), chars ("korku dolu")⟩ : Entry).word.getLast? = some y →
        isWsChar y = false) ∧
      (∀ y, (⟨chars ("YILAN"), chars ("korku dolu")⟩ : Entry).meaning.head? = some y →
        isWsChar y = false) ∧
      (∀ y, (⟨chars ("YILAN"), chars ("korku dolu")⟩ : Entry).meaning.getLast? = some y →
        isWsChar y = false)) :=
  ⟨by decide,
   load_dataset_trimmed
     [⟨some (JVal.jstr (chars ("  YILAN "))),
       some (JVal.jstr (chars (" korku dolu ")))⟩]
     ⟨chars ("YILAN"), chars ("korku dolu")⟩ (by decide)⟩

/-! Section: Generic fold invariants -/

theorem foldl_pres {α β : Type} (P : β → Prop) (step : β → α → β)
    (hstep : ∀ st k, P st → P (step st k)) :
    ∀ (ks : List α) (st : β), P st → P (ks.foldl step st) := by
  intro ks
  induction ks with
  | nil => intro st h; exact h
  | cons k rest ih =>
    intro st h
    rw [List.foldl_cons]
    exact ih _ (hstep st k h)

theorem foldl_attains {α β : Type} (step : β → α → β) (Q M : β → Prop)
    (hQ : ∀ st k, Q st → Q (step st k)) (hM : ∀ st k, M st → M (step st k))
    (k0 : α) (hAt : ∀ st, Q st → M (step st k0)) :
    ∀ (ks : List α) (st : β), k0 ∈ ks → Q st → M (ks.foldl step st) := by
  intro ks
  induction ks with
  | nil => intro st h; cases h
  | cons k rest ih =>
    intro st hmem hq
    rw [List.foldl_cons]
    rcases List.mem_cons.mp hmem with h | h
    · rw [← h]
      exact foldl_pres M step hM rest _ (h ▸ hAt st hq)
    · exact ih _ h (hQ st k hq)

/-! Section: The matcher on empty input -/

theorem candidateSet_nil (maxPhrLen : Nat) : candidateSet [] maxPhrLen = [] := by
  have h1 : candTokens [] = [] := rfl
  unfold candidateSet
  rw [h1]
  unfold ngramsOf
  simp

theorem primStep_nil_cands (fidx : Index) (maxPhrLen : Nat)
    (st : List (Str × Str) × List (Str × Str)) (k : Str) :
    primStep fidx [] maxPhrLen st k = st := by
  unfold primStep
  by_cases h1 : maxPhrLen < keyWords k
  · rw [if_pos h1]
  · rw [if_neg h1]
    by_cases h2 : k.length < 2
    · rw [if_pos h2]
    · rw [if_neg h2, if_neg (by simp)]

theorem primaryStage_nil (idx : Index) (maxPhrLen : Nat) :
    primaryStage [] idx maxPhrLen = ([], []) := by
  unfold primaryStage
  rw [candidateSet_nil]
  have h : ∀ (ks : List Str) (st : List (Str × Str) × List (Str × Str)),
      ks.foldl (primStep (foldIndex idx) [] maxPhrLen) st = st := by
    intro ks
    induction ks with
    | nil => intro st; rfl
    | cons k rest ih =>
      intro st
      rw [List.foldl_cons, primStep_nil_cands]
      exact ih st
  exact h _ _

theorem fbStep_nil_text (fidx : Index)
    (st : List (Str × Str) × List (Str × Str)) (k : Str) :
    fbStep fidx [] st k = st := by
  unfold fbStep
  by_cases h1 : keyWords k = 1 ∧ 4 ≤ k.length
  · rw [if_pos h1]
    have h2 : pyInStr k [] = false := by
      unfold pyInStr
      rw [decide_eq_false]
      intro hin
      rw [List.infix_nil] at hin
      rw [hin] at h1
      simp at h1
    rw [h2]
    simp
  · rw [if_neg h1]

/-- C4: `find_matches` applied to the empty string returns the empty
sequence for every index and phrase-length bound; the matching core is
total by construction, so non-matching input yields an empty list rather
than an error. -/
theorem find_matches_empty_input (idx : Index) (maxPhrLen : Nat) :
    find_matches [] idx maxPhrLen = [] := by
  unfold find_matches
  rw [primaryStage_nil]
  rw [if_pos rfl]
  unfold fallbackStage
  have he : fold_tr (normalize_text []) = [] := rfl
  rw [he]
  have h : ∀ (ks : List Str) (st : List (Str × Str) × List (Str × Str)),
      ks.foldl (fbStep (foldIndex idx) []) st = st := by
    intro ks
    induction ks with
    | nil => intro st; rfl
    | cons k rest ih =>
      intro st
      rw [List.foldl_cons, fbStep_nil_text]
      exact ih st
  rw [h]

/-! Section: De-duplication invariant of the matcher -/

theorem emitStep_inv {st : List (Str × Str) × List (Str × Str)} (p : Str × Str)
    (h : ∀ q, q ∈ st.1 ↔ q ∈ st.2) :
    ∀ q, q ∈ (emitStep st p).1 ↔ q ∈ (emitStep st p).2 := by
  intro q
  unfold emitStep
  by_cases hp : p ∈ st.2
  · rw [if_pos hp]; exact h q
  · rw [if_neg hp]
    simp only [List.mem_append, List.mem_singleton]
    rw [h q]

theorem emitStep_nodup {st : List (Str × Str) × List (Str × Str)} (p : Str × Str)
    (hinv : ∀ q, q ∈ st.1 ↔ q ∈ st.2) (h : st.1.Nodup) :
    (emitStep st p).1.Nodup := by
  unfold emitStep
  by_cases hp : p ∈ st.2
  · rw [if_pos hp]; exact h
  · rw [if_neg hp]
    have hp1 : p ∉ st.1 := fun hc => hp ((hinv p).mp hc)
    refine List.nodup_append.mpr ⟨h, by simp, ?_⟩
    intro x hx hx2
    simp at hx2
    rw [hx2] at hx
    exact hp1 hx

theorem emitStep_P {st : List (Str × Str) × List (Str × Str)} (p : Str × Str)
    (h : st.1.Nodup ∧ ∀ q, q ∈ st.1 ↔ q ∈ st.2) :
    (emitStep st p).1.Nodup ∧
      ∀ q, q ∈ (emitStep st p).1 ↔ q ∈ (emitStep st p).2 :=
  ⟨emitStep_nodup p h.2 h.1, emitStep_inv p h.2⟩

theorem emitAll_P (pairs : List (Str × Str))
    (st : List (Str × Str) × List (Str × Str))
    (h : st.1.Nodup ∧ ∀ q, q ∈ st.1 ↔ q ∈ st.2) :
    (emitAll pairs st).1.Nodup ∧
      ∀ q, q ∈ (emitAll pairs st).1 ↔ q ∈ (emitAll pairs st).2 :=
  foldl_pres (fun st => st.1.Nodup ∧ ∀ q, q ∈ st.1 ↔ q ∈ st.2) emitStep
    (fun st p h => emitStep_P p h) pairs st h

theorem primStep_P (fidx : Index) (cands : List Str) (maxPhrLen : Nat)
    (st : List (Str × Str) × List (Str × Str)) (k : Str)
    (h : st.1.Nodup ∧ ∀ q, q ∈ st.1 ↔ q ∈ st.2) :
    (primStep fidx cands maxPhrLen st k).1.Nodup ∧
      ∀ q, q ∈ (primStep fidx cands maxPhrLen st k).1 ↔
        q ∈ (primStep fidx cands maxPhrLen st k).2 := by
  unfold primStep
  by_cases h1 : maxPhrLen < keyWords k
  · rw [if_pos h1]; exact h
  · rw [if_neg h1]
    by_cases h2 : k.length < 2
    · rw [if_pos h2]; exact h
    · rw [if_neg h2]
      by_cases h3 : k ∈ cands
      · rw [if_pos h3]; exact emitAll_P _ _ h
      · rw [if_neg h3]; exact h

theorem fbStep_P (fidx : Index) (ntextF : Str)
    (st : List (Str × Str) × List (Str × Str)) (k : Str)
    (h : st.1.Nodup ∧ ∀ q, q ∈ st.1 ↔ q ∈ st.2) :
    (fbStep fidx ntextF st k).1.Nodup ∧
      ∀ q, q ∈ (fbStep fidx ntextF st k).1 ↔ q ∈ (fbStep fidx ntextF st k).2 := by
  unfold fbStep
  by_cases h1 : keyWords k = 1 ∧ 4 ≤ k.length
  · rw [if_pos h1]
    by_cases h2 : pyInStr k ntextF = true
    · rw [h2]
      simp only [if_true]
      exact emitAll_P _ _ h
    · rw [Bool.not_eq_true] at h2
      rw [h2]
      simpa using h
  · rw [if_neg h1]; exact h

theorem primaryStage_P (text : Str) (idx : Index) (maxPhrLen : Nat) :
    (primaryStage text idx maxPhrLen).1.Nodup ∧
      ∀ q, q ∈ (primaryStage text idx maxPhrLen).1 ↔
        q ∈ (primaryStage text idx maxPhrLen).2 := by
  unfold primaryStage
  exact foldl_pres (fun st => st.1.Nodup ∧ ∀ q, q ∈ st.1 ↔ q ∈ st.2)
    (primStep (foldIndex idx) (candidateSet text maxPhrLen) maxPhrLen)
    (fun st k h => primStep_P _ _ _ st k h) _ ([], [])
    ⟨List.nodup_nil, by simp⟩

/-- C2: no two elements of a `find_matches` result are the same
(word, meaning) pair — the result is duplicate-free by pair identity,
while nothing forbids one word appearing with several meanings. -/
theorem find_matches_nodup (text : Str) (idx : Index) (maxPhrLen : Nat) :
    (find_matches text idx maxPhrLen).Nodup := by
  unfold find_matches
  have hP := primaryStage_P text idx maxPhrLen
  by_cases h : (primaryStage text idx maxPhrLen).1 = []
  · rw [if_pos h]
    unfold fallbackStage
    exact (foldl_pres (fun st => st.1.Nodup ∧ ∀ q, q ∈ st.1 ↔ q ∈ st.2)
      (fbStep (foldIndex idx) (fold_tr (normalize_text text)))
      (fun st k hq => fbStep_P _ _ st k hq) _ _ hP).1
  · rw [if_neg h]
    exact hP.1

/-! Section: Fallback completeness -/

theorem emitStep_mono {st : List (Str × Str) × List (Str × Str)}
    (p : Str × Str) {q : Str × Str} (h : q ∈ st.1) : q ∈ (emitStep st p).1 := by
  unfold emitStep
  by_cases hp : p ∈ st.2
  · rw [if_pos hp]; exact h
  · rw [if_neg hp]; exact List.mem_append_left _ h

theorem emitAll_mono (pairs : List (Str × Str))
    (st : List (Str × Str) × List (Str × Str)) {q : Str × Str}
    (h : q ∈ st.1) : q ∈ (emitAll pairs st).1 :=
  foldl_pres (fun st => q ∈ st.1) emitStep (fun st p h => emitStep_mono p h)
    pairs st h

theorem emitAll_complete :
    ∀ (pairs : List (Str × Str)) (st : List (Str × Str) × List (Str × Str))
      (p : Str × Str), (∀ q, q ∈ st.1 ↔ q ∈ st.2) → p ∈ pairs →
      p ∈ (emitAll pairs st).1 := by
  intro pairs
  induction pairs with
  | nil => intro st p _ hp; cases hp
  | cons a rest ih =>
    intro st p hinv hp
    show p ∈ (rest.foldl emitStep (emitStep st a)).1
    rcases List.mem_cons.mp hp with h | h
    · have hmem : p ∈ (emitStep st a).1 := by
        rw [h]
        unfold emitStep
        by_cases ha : a ∈ st.2
        · rw [if_pos ha]; exact (hinv a).mpr ha
        · rw [if_neg ha]; simp
      exact foldl_pres (fun st => p ∈ st.1) emitStep
        (fun st k h2 => emitStep_mono k h2) rest _ hmem
    · exact ih _ p (emitStep_inv a hinv) h

theorem fbStep_mono (fidx : Index) (ntextF : Str)
    (st : List (Str × Str) × List (Str × Str)) (k : Str) {q : Str × Str}
    (h : q ∈ st.1) : q ∈ (fbStep fidx ntextF st k).1 := by
  unfold fbStep
  by_cases h1 : keyWords k = 1 ∧ 4 ≤ k.length
  · rw [if_pos h1]
    by_cases h2 : pyInStr k ntextF = true
    · rw [h2]
      simp only [if_true]
      exact emitAll_mono _ _ h
    · rw [Bool.not_eq_true] at h2
      rw [h2]
      simpa using h
  · rw [if_neg h1]; exact h

theorem fbStep_complete {fidx : Index} {ntextF : Str}
    {st : List (Str × Str) × List (Str × Str)} {k : Str}
    (hinv : ∀ q, q ∈ st.1 ↔ q ∈ st.2)
    (h1 : keyWords k = 1) (h2 : 4 ≤ k.length)
    (h3 : pyInStr k ntextF = true) {p : Str × Str}
    (hp : p ∈ lookupIdx fidx k) : p ∈ (fbStep fidx ntextF st k).1 := by
  unfold fbStep
  rw [if_pos ⟨h1, h2⟩, h3]
  simp only [if_true]
  exact emitAll_complete _ st p hinv hp

theorem mem_insertKeyByWords {x k : Str} :
    ∀ {l : List Str}, x ∈ insertKeyByWords k l ↔ x = k ∨ x ∈ l := by
  intro l
  induction l with
  | nil => simp [insertKeyByWords]
  | cons k' rest ih =>
    unfold insertKeyByWords
    by_cases hc : keyWords k' ≤ keyWords k
    · rw [if_pos hc]
      simp
    · rw [if_neg hc]
      simp only [List.mem_cons, ih]
      tauto

theorem mem_sortKeysByWords {x : Str} :
    ∀ {ks : List Str}, x ∈ sortKeysByWords ks ↔ x ∈ ks := by
  intro ks
  induction ks with
  | nil => simp [sortKeysByWords]
  | cons k rest ih =>
    show x ∈ insertKeyByWords k (sortKeysByWords rest) ↔ _
    rw [mem_insertKeyByWords]
    simp only [List.mem_cons]
    rw [ih]

theorem lookupIdx_mem_keys {fidx : Index} {k : Str} {p : Str × Str}
    (hp : p ∈ lookupIdx fidx k) : k ∈ fidx.map (fun e => e.1) := by
  unfold lookupIdx at hp
  cases hf : fidx.find? (fun e => e.1 == k) with
  | none => rw [hf] at hp; cases hp
  | some e =>
    have hm := List.mem_of_find?_eq_some hf
    have hpred := List.find?_some hf
    simp only [beq_iff_eq] at hpred
    rw [List.mem_map]
    exact ⟨e, hm, hpred⟩

/-- C3: when the primary n-gram/stem/synonym stage yields no matches,
every pair registered under a single-word folded key of length at least
4 that occurs as a substring of the folded normalized text is appended
to the result by the substring fallback (under the de-duplication
rule). -/
theorem fallback_substring_complete (text : Str) (idx : Index)
    (maxPhrLen : Nat) (k w m : Str)
    (hprim : (primaryStage text idx maxPhrLen).1 = [])
    (h1 : keyWords k = 1) (h2 : 4 ≤ k.length)
    (h3 : pyInStr k (fold_tr (normalize_text text)) = true)
    (hp : (w, m) ∈ lookupIdx (foldIndex idx) k) :
    (w, m) ∈ find_matches text idx maxPhrLen := by
  unfold find_matches
  rw [if_pos hprim]
  unfold fallbackStage
  have hkmem : k ∈ keysOf idx := by
    unfold keysOf
    exact mem_sortKeysByWords.mpr (lookupIdx_mem_keys hp)
  exact foldl_attains (fbStep (foldIndex idx) (fold_tr (normalize_text text)))
    (fun st => st.1.Nodup ∧ ∀ q, q ∈ st.1 ↔ q ∈ st.2)
    (fun st => (w, m) ∈ st.1)
    (fun st k2 h => fbStep_P _ _ st k2 h)
    (fun st k2 h => fbStep_mono _ _ st k2 h)
    k
    (fun st hq => fbStep_complete hq.2 h1 h2 h3 hp)
    (keysOf idx) _ hkmem (primaryStage_P text idx maxPhrLen)

/-- Witness for C3: the word RÜYA registered under folded key "ruya" is
found through the substring fallback on the text "xruyax", on which the
primary stage finds nothing. -/
theorem fallback_substring_complete_witness :
    ((primaryStage (chars ("xruyax"))
        [(chars ("rüya"), [(chars ("RÜYA"), chars ("hayra işarettir"))])] 5).1 = [] ∧
      keyWords (chars ("ruya")) = 1 ∧ 4 ≤ (chars ("ruya")).length ∧
      pyInStr (chars ("ruya"))
        (fold_tr (normalize_text (chars ("xruyax")))) = true ∧
      (chars ("RÜYA"), chars ("hayra işarettir")) ∈
        lookupIdx (foldIndex
          [(chars ("rüya"), [(chars ("RÜYA"), chars ("hayra işarettir"))])])
          (chars ("ruya"))) ∧
    (chars ("RÜYA"), chars ("hayra işarettir")) ∈
      find_matches (chars ("xruyax"))
        [(chars ("rüya"), [(chars ("RÜYA"), chars ("hayra işarettir"))])] 5 :=
  ⟨⟨by decide, by decide, by decide, by decide, by decide⟩,
   fallback_substring_complete (chars ("xruyax"))
     [(chars ("rüya"), [(chars ("RÜYA"), chars ("hayra işarettir"))])] 5
     (chars ("ruya")) (chars ("RÜYA")) (chars ("hayra işarettir"))
     (by decide) (by decide) (by decide) (by decide) (by decide)⟩

/-! Section: Ordering of the matcher output -/

theorem pairwise_of_all {α : Type} {R : α → α → Prop} :
    ∀ {l : List α}, (∀ a ∈ l, ∀ b ∈ l, R a b) → List.Pairwise R l := by
  intro l
  induction l with
  | nil => intro _; exact List.Pairwise.nil
  | cons a rest ih =>
    intro h
    rw [List.pairwise_cons]
    exact ⟨fun b hb => h a (by simp) b (by simp [hb]),
      ih (fun x hx y hy => h x (by simp [hx]) y (by simp [hy]))⟩

theorem insertKeyByWords_sorted {l : List Str}
    (h : List.Pairwise (fun a b => keyWords b ≤ keyWords a) l) (k : Str) :
    List.Pairwise (fun a b => keyWords b ≤ keyWords a)
      (insertKeyByWords k l) := by
  induction l with
  | nil => simp [insertKeyByWords]
  | cons k' rest ih =>
    rw [List.pairwise_cons] at h
    unfold insertKeyByWords
    by_cases hc : keyWords k' ≤ keyWords k
    · rw [if_pos hc]
      rw [List.pairwise_cons]
      constructor
      · intro b hb
        rcases List.mem_cons.mp hb with hb2 | hb2
        · rw [hb2]; exact hc
        · exact le_trans (h.1 b hb2) hc
      · exact List.pairwise_cons.mpr h
    · rw [if_neg hc]
      rw [List.pairwise_cons]
      constructor
      · intro b hb
        rcases mem_insertKeyByWords.mp hb with hb2 | hb2
        · rw [hb2]; omega
        · exact h.1 b hb2
      · exact ih h.2

theorem keysOf_sorted (idx : Index) :
    List.Pairwise (fun a b => keyWords b ≤ keyWords a) (keysOf idx) := by
  unfold keysOf sortKeysByWords
  induction ((foldIndex idx).map (fun e => e.1)) with
  | nil => exact List.Pairwise.nil
  | cons k rest ih =>
    rw [List.foldr_cons]
    exact insertKeyByWords_sorted ih k

theorem emitStepA_shape (k : Str)
    (st : List (Str × Str × Str) × List (Str × Str)) (p : Str × Str) :
    ∃ t, (emitStepA k st p).1 = st.1 ++ t ∧ ∀ e ∈ t, e.1 = k := by
  unfold emitStepA
  by_cases hp : p ∈ st.2
  · rw [if_pos hp]; exact ⟨[], by simp, by simp⟩
  · rw [if_neg hp]; exact ⟨[(k, p)], rfl, by simp⟩

theorem emitAllA_shape (k : Str) (pairs : List (Str × Str)) :
    ∀ (st : List (Str × Str × Str) × List (Str × Str)),
      ∃ t, (emitAllA k pairs st).1 = st.1 ++ t ∧ ∀ e ∈ t, e.1 = k := by
  induction pairs with
  | nil => intro st; exact ⟨[], by simp [emitAllA], by simp⟩
  | cons a rest ih =>
    intro st
    obtain ⟨t1, ht1, ht1k⟩ := emitStepA_shape k st a
    obtain ⟨t2, ht2, ht2k⟩ := ih (emitStepA k st a)
    refine ⟨t1 ++ t2, ?_, ?_⟩
    · show (emitAllA k rest (emitStepA k st a)).1 = st.1 ++ (t1 ++ t2)
      rw [ht2, ht1, List.append_assoc]
    · intro e he
      rcases List.mem_append.mp he with h | h
      · exact ht1k e h
      · exact ht2k e h

theorem primStepA_shape (fidx : Index) (cands : List Str) (maxPhrLen : Nat)
    (st : List (Str × Str × Str) × List (Str × Str)) (k : Str) :
    ∃ t, (primStepA fidx cands maxPhrLen st k).1 = st.1 ++ t ∧
      ∀ e ∈ t, e.1 = k := by
  unfold primStepA
  by_cases h1 : maxPhrLen < keyWords k
  · rw [if_pos h1]; exact ⟨[], by simp, by simp⟩
  · rw [if_neg h1]
    by_cases h2 : k.length < 2
    · rw [if_pos h2]; exact ⟨[], by simp, by simp⟩
    · rw [if_neg h2]
      by_cases h3 : k ∈ cands
      · rw [if_pos h3]; exact emitAllA_shape k _ st
      · rw [if_neg h3]; exact ⟨[], by simp, by simp⟩

theorem fbStepA_shape (fidx : Index) (ntextF : Str)
    (st : List (Str × Str × Str) × List (Str × Str)) (k : Str) :
    ∃ t, (fbStepA fidx ntextF st k).1 = st.1 ++ t ∧
      ∀ e ∈ t, e.1 = k ∧ keyWords k = 1 := by
  unfold fbStepA
  by_cases h1 : keyWords k = 1 ∧ 4 ≤ k.length
  · rw [if_pos h1]
    by_cases h2 : pyInStr k ntextF = true
    · rw [h2]
      simp only [if_true]
      obtain ⟨t, ht, htk⟩ := emitAllA_shape k (lookupIdx fidx k) st
      exact ⟨t, ht, fun e he => ⟨htk e he, h1.1⟩⟩
    · rw [Bool.not_eq_true] at h2
      rw [h2]
      exact ⟨[], by simp, by simp⟩
  · rw [if_neg h1]; exact ⟨[], by simp, by simp⟩

theorem primaryA_sorted_aux (fidx : Index) (cands : List Str) (maxPhrLen : Nat) :
    ∀ (ks : List Str) (st : List (Str × Str × Str) × List (Str × Str)),
      List.Pairwise (fun a b => keyWords b ≤ keyWords a) ks →
      List.Pairwise (fun a b => keyWords b.1 ≤ keyWords a.1) st.1 →
      (∀ e ∈ st.1, ∀ k ∈ ks, keyWords k ≤ keyWords e.1) →
      List.Pairwise (fun a b => keyWords b.1 ≤ keyWords a.1)
        ((ks.foldl (primStepA fidx cands maxPhrLen) st).1) := by
  intro ks
  induction ks with
  | nil => intro st _ h2 _; exact h2
  | cons k rest ih =>
    intro st hks h2 h3
    rw [List.foldl_cons]
    rw [List.pairwise_cons] at hks
    obtain ⟨t, ht, htk⟩ := primStepA_shape fidx cands maxPhrLen st k
    apply ih
    · exact hks.2
    · rw [ht]
      rw [List.pairwise_append]
      refine ⟨h2, ?_, ?_⟩
      · exact pairwise_of_all (fun a ha b hb => by rw [htk a ha, htk b hb])
      · intro a ha b hb
        rw [htk b hb]
        exact h3 a ha k (List.mem_cons_self k rest)
    · intro e he k' hk'
      rw [ht] at he
      rcases List.mem_append.mp he with he2 | he2
      · exact h3 e he2 k' (List.mem_cons_of_mem k hk')
      · rw [htk e he2]
        exact hks.1 k' hk'

theorem fallbackA_wc1 (fidx : Index) (ntextF : Str) (ks : List Str)
    (st : List (Str × Str × Str) × List (Str × Str))
    (h : ∀ e ∈ st.1, keyWords e.1 = 1) :
    ∀ e ∈ (ks.foldl (fbStepA fidx ntextF) st).1, keyWords e.1 = 1 := by
  apply foldl_pres (fun st => ∀ e ∈ st.1, keyWords e.1 = 1)
    (fbStepA fidx ntextF) ?_ ks st h
  intro st2 k hst e he
  obtain ⟨t, ht, htk⟩ := fbStepA_shape fidx ntextF st2 k
  rw [ht] at he
  rcases List.mem_append.mp he with he2 | he2
  · exact hst e he2
  · rw [(htk e he2).1]
    exact (htk e he2).2

theorem emitStepA_sync (k : Str) (p : Str × Str)
    {stA : List (Str × Str × Str) × List (Str × Str)}
    {st : List (Str × Str) × List (Str × Str)}
    (h1 : stA.1.map (fun e => (e.2.1, e.2.2)) = st.1) (h2 : stA.2 = st.2) :
    (emitStepA k stA p).1.map (fun e => (e.2.1, e.2.2)) = (emitStep st p).1 ∧
      (emitStepA k stA p).2 = (emitStep st p).2 := by
  unfold emitStepA emitStep
  by_cases hp : p ∈ st.2
  · rw [if_pos (show p ∈ stA.2 by rw [h2]; exact hp), if_pos hp]
    exact ⟨h1, h2⟩
  · rw [if_neg (show ¬(p ∈ stA.2) by rw [h2]; exact hp), if_neg hp]
    refine ⟨?_, by simp [h2]⟩
    simp only [List.map_append, h1, List.map_cons, List.map_nil]

theorem emitAllA_sync (k : Str) (pairs : List (Str × Str)) :
    ∀ {stA : List (Str × Str × Str) × List (Str × Str)}
      {st : List (Str × Str) × List (Str × Str)},
      stA.1.map (fun e => (e.2.1, e.2.2)) = st.1 → stA.2 = st.2 →
      (emitAllA k pairs stA).1.map (fun e => (e.2.1, e.2.2)) =
        (emitAll pairs st).1 ∧
      (emitAllA k pairs stA).2 = (emitAll pairs st).2 := by
  induction pairs with
  | nil => intro stA st h1 h2; exact ⟨h1, h2⟩
  | cons a rest ih =>
    intro stA st h1 h2
    obtain ⟨g1, g2⟩ := emitStepA_sync k a h1 h2
    exact ih g1 g2

theorem primStepA_sync (fidx : Index) (cands : List Str) (maxPhrLen : Nat)
    (k : Str) {stA : List (Str × Str × Str) × List (Str × Str)}
    {st : List (Str × Str) × List (Str × Str)}
    (h1 : stA.1.map (fun e => (e.2.1, e.2.2)) = st.1) (h2 : stA.2 = st.2) :
    (primStepA fidx cands maxPhrLen stA k).1.map (fun e => (e.2.1, e.2.2)) =
      (primStep fidx cands maxPhrLen st k).1 ∧
    (primStepA fidx cands maxPhrLen stA k).2 =
      (primStep fidx cands maxPhrLen st k).2 := by
  unfold primStepA primStep
  by_cases c1 : maxPhrLen < keyWords k
  · rw [if_pos c1, if_pos c1]; exact ⟨h1, h2⟩
  · rw [if_neg c1, if_neg c1]
    by_cases c2 : k.length < 2
    · rw [if_pos c2, if_pos c2]; exact ⟨h1, h2⟩
    · rw [if_neg c2, if_neg c2]
      by_cases c3 : k ∈ cands
      · rw [if_pos c3, if_pos c3]; exact emitAllA_sync k _ h1 h2
      · rw [if_neg c3, if_neg c3]; exact ⟨h1, h2⟩

theorem fbStepA_sync (fidx : Index) (ntextF : Str) (k : Str)
    {stA : List (Str × Str × Str) × List (Str × Str)}
    {st : List (Str × Str) × List (Str × Str)}
    (h1 : stA.1.map (fun e => (e.2.1, e.2.2)) = st.1) (h2 : stA.2 = st.2) :
    (fbStepA fidx ntextF stA k).1.map (fun e => (e.2.1, e.2.2)) =
      (fbStep fidx ntextF st k).1 ∧
    (fbStepA fidx ntextF stA k).2 = (fbStep fidx ntextF st k).2 := by
  unfold fbStepA fbStep
  by_cases c1 : keyWords k = 1 ∧ 4 ≤ k.length
  · rw [if_pos c1, if_pos c1]
    by_cases c2 : pyInStr k ntextF = true
    · rw [c2]
      simp only [if_true]
      exact emitAllA_sync k _ h1 h2
    · rw [Bool.not_eq_true] at c2
      rw [c2]
      simpa using ⟨h1, h2⟩
  · rw [if_neg c1, if_neg c1]; exact ⟨h1, h2⟩

theorem foldl_primA_sync (fidx : Index) (cands : List Str) (maxPhrLen : Nat) :
    ∀ (ks : List Str) {stA : List (Str × Str × Str) × List (Str × Str)}
      {st : List (Str × Str) × List (Str × Str)},
      stA.1.map (fun e => (e.2.1, e.2.2)) = st.1 → stA.2 = st.2 →
      ((ks.foldl (primStepA fidx cands maxPhrLen) stA).1.map
        (fun e => (e.2.1, e.2.2)) =
          (ks.foldl (primStep fidx cands maxPhrLen) st).1 ∧
       (ks.foldl (primStepA fidx cands maxPhrLen) stA).2 =
          (ks.foldl (primStep fidx cands maxPhrLen) st).2) := by
  intro ks
  induction ks with
  | nil => intro stA st h1 h2; exact ⟨h1, h2⟩
  | cons k rest ih =>
    intro stA st h1 h2
    rw [List.foldl_cons, List.foldl_cons]
    obtain ⟨g1, g2⟩ := primStepA_sync fidx cands maxPhrLen k h1 h2
    exact ih g1 g2

theorem foldl_fbA_sync (fidx : Index) (ntextF : Str) :
    ∀ (ks : List Str) {stA : List (Str × Str × Str) × List (Str × Str)}
      {st : List (Str × Str) × List (Str × Str)},
      stA.1.map (fun e => (e.2.1, e.2.2)) = st.1 → stA.2 = st.2 →
      ((ks.foldl (fbStepA fidx ntextF) stA).1.map (fun e => (e.2.1, e.2.2)) =
          (ks.foldl (fbStep fidx ntextF) st).1 ∧
       (ks.foldl (fbStepA fidx ntextF) stA).2 =
          (ks.foldl (fbStep fidx ntextF) st).2) := by
  intro ks
  induction ks with
  | nil => intro stA st h1 h2; exact ⟨h1, h2⟩
  | cons k rest ih =>
    intro stA st h1 h2
    rw [List.foldl_cons, List.foldl_cons]
    obtain ⟨g1, g2⟩ := fbStepA_sync fidx ntextF k h1 h2
    exact ih g1 g2

theorem primaryStageA_sync (text : Str) (idx : Index) (maxPhrLen : Nat) :
    (primaryStageA text idx maxPhrLen).1.map (fun e => (e.2.1, e.2.2)) =
      (primaryStage text idx maxPhrLen).1 ∧
    (primaryStageA text idx maxPhrLen).2 =
      (primaryStage text idx maxPhrLen).2 := by
  unfold primaryStageA primaryStage
  exact foldl_primA_sync _ _ _ _ (by simp) rfl

theorem find_matches_annotated_sync (text : Str) (idx : Index)
    (maxPhrLen : Nat) :
    (find_matches_annotated text idx maxPhrLen).map (fun e => (e.2.1, e.2.2)) =
      find_matches text idx maxPhrLen := by
  unfold find_matches_annotated find_matches
  obtain ⟨g1, g2⟩ := primaryStageA_sync text idx maxPhrLen
  by_cases h : (primaryStage text idx maxPhrLen).1 = []
  · rw [if_pos h, if_pos (show (primaryStageA text idx maxPhrLen).1 = [] by
      rw [h] at g1
      exact List.map_eq_nil_iff.mp g1)]
    unfold fallbackStageA fallbackStage
    exact (foldl_fbA_sync _ _ _ g1 g2).1
  · rw [if_neg (show ¬((primaryStageA text idx maxPhrLen).1 = []) by
      intro hA
      apply h
      rw [← g1, hA]
      rfl), if_neg h]
    exact g1

/-- C1: the `find_matches` result is ordered by non-increasing word
count of the folded key that first emitted each pair: the annotated run
agrees with `find_matches` after erasing the keys, and its emitting-key
word counts are non-increasing along the list.  Fallback pairs all carry
single-word keys and arise only from an empty primary stage. -/
theorem find_matches_ordered (text : Str) (idx : Index) (maxPhrLen : Nat) :
    (find_matches_annotated text idx maxPhrLen).map (fun e => (e.2.1, e.2.2)) =
      find_matches text idx maxPhrLen ∧
    List.Pairwise (fun a b => keyWords b.1 ≤ keyWords a.1)
      (find_matches_annotated text idx maxPhrLen) := by
  refine ⟨find_matches_annotated_sync text idx maxPhrLen, ?_⟩
  unfold find_matches_annotated
  by_cases h : (primaryStageA text idx maxPhrLen).1 = []
  · rw [if_pos h]
    unfold fallbackStageA
    have hall := fallbackA_wc1 (foldIndex idx) (fold_tr (normalize_text text))
      (keysOf idx) (primaryStageA text idx maxPhrLen)
      (by rw [h]; intro e he; cases he)
    exact pairwise_of_all (fun a ha b hb => by rw [hall a ha, hall b hb])
  · rw [if_neg h]
    unfold primaryStageA
    exact primaryA_sorted_aux _ _ _ (keysOf idx) ([], [])
      (keysOf_sorted idx) List.Pairwise.nil (by intro e he; cases he)

/-! Section: Stemmer membership facts -/

theorem stemSuffixStep_mono (t : Str) (acc : List Str) (suf : Str) {s : Str}
    (h : s ∈ acc) : s ∈ stemSuffixStep t acc suf := by
  unfold stemSuffixStep
  repeat' split
  all_goals simp [List.mem_append, h]

theorem stemSuffixStep_adds (t : Str) (acc : List Str) (suf : Str)
    (hsuf : suf.isSuffixOf t = true) :
    t.take (t.length - suf.length) ∈ stemSuffixStep t acc suf := by
  unfold stemSuffixStep
  rw [if_pos hsuf]
  repeat' split
  all_goals simp [List.mem_append]

theorem stemSuffixStep_adds_drop (t : Str) (acc : List Str) (suf : Str)
    (hsuf : suf.isSuffixOf t = true) {v : Char}
    (hv : (t.take (t.length - suf.length)).getLast? = some v)
    (hvv : VOWELS.contains v = true)
    (hyor : (chars ("yor")).isPrefixOf suf = true)
    (hne : (t.take (t.length - suf.length)).isEmpty = false) :
    (t.take (t.length - suf.length)).dropLast ∈ stemSuffixStep t acc suf := by
  unfold stemSuffixStep
  rw [if_pos hsuf, if_pos (by rw [hyor, hne]; rfl), hv]
  have hvm : v ∈ VOWELS := by simpa using hvv
  simp [hvm, List.mem_append]

theorem stemOut1_base (t suf : Str) (hsuf : suf ∈ SUFFIXES_F)
    (hend : suf.isSuffixOf t = true) :
    t.take (t.length - suf.length) ∈ stemOut1 t := by
  unfold stemOut1
  exact foldl_attains (stemSuffixStep t) (fun _ => True)
    (fun acc => t.take (t.length - suf.length) ∈ acc)
    (fun _ _ _ => trivial)
    (fun acc k h => stemSuffixStep_mono t acc k h)
    suf (fun acc _ => stemSuffixStep_adds t acc suf hend)
    SUFFIXES_F [t] hsuf trivial

theorem stemOut1_drop (t suf : Str) (hsuf : suf ∈ SUFFIXES_F)
    (hend : suf.isSuffixOf t = true) {v : Char}
    (hv : (t.take (t.length - suf.length)).getLast? = some v)
    (hvv : VOWELS.contains v = true)
    (hyor : (chars ("yor")).isPrefixOf suf = true)
    (hne : (t.take (t.length - suf.length)).isEmpty = false) :
    (t.take (t.length - suf.length)).dropLast ∈ stemOut1 t := by
  unfold stemOut1
  exact foldl_attains (stemSuffixStep t) (fun _ => True)
    (fun acc => (t.take (t.length - suf.length)).dropLast ∈ acc)
    (fun _ _ _ => trivial)
    (fun acc k h => stemSuffixStep_mono t acc k h)
    suf (fun acc _ => stemSuffixStep_adds_drop t acc suf hend hv hvv hyor hne)
    SUFFIXES_F [t] hsuf trivial

theorem stemOut3_of_out1 {t s : Str} (h : s ∈ stemOut1 t)
    (hlen : 2 ≤ s.length) : s ∈ stemOut3 t := by
  unfold stemOut3 stemOut2
  exact List.mem_filter.mpr ⟨List.mem_append_left _ h, by simpa using hlen⟩

theorem stemOut4_of_out3 {t s : Str} (h : s ∈ stemOut3 t) : s ∈ stemOut4 t := by
  unfold stemOut4
  exact List.mem_append_left _ h

theorem stemOut4_inf {t s : Str} (h : s ∈ stemOut3 t)
    (hninf : endsWithInf s = false) :
    s ++ guess_inf_suffix s ∈ stemOut4 t := by
  unfold stemOut4
  apply List.mem_append_right
  apply List.mem_filterMap.mpr
  exact ⟨s, h, by rw [hninf]; simp⟩

theorem tr_stem_mem {t s : Str} (h : s ∈ stemOut4 t) :
    fold_tr s ∈ tr_stem_candidates t :=
  List.mem_map_of_mem _ h

theorem fixed_of_fold_eq {t : Str} (h : fold_tr t = t) :
    ∀ c ∈ t, foldFixedChar c = true := by
  intro c hc
  rw [← h] at hc
  exact fold_tr_out_fixed hc

theorem fold_tr_fixed_of {u : Str} (hfix : ∀ c ∈ u, foldFixedChar c = true)
    (hnws : ∀ c ∈ u, isWsChar c = false) : fold_tr u = u := by
  rw [fold_tr_fixed_parts hfix]
  have hcoll : collapseWs u = u := by
    unfold collapseWs
    apply collapseWsAux_fixed
    · intro c hc hws
      rw [hnws c hc] at hws
      cases hws
    · apply List.Pairwise.chain'
      apply pairwise_of_all
      intro a ha b _ hcon
      rw [hnws a ha] at hcon
      cases hcon.1
  rw [hcoll]
  apply pyStrip_fixed_of
  · intro y hy
    exact hnws y (List.mem_of_mem_head? (by rw [hy]; rfl))
  · intro y hy
    exact hnws y (List.mem_of_mem_getLast? (by rw [hy]; rfl))

theorem last_vowel_mem (s : Str) :
    last_vowel s ∈ VOWELS_A ∨ last_vowel s ∈ VOWELS_E := by
  unfold last_vowel
  cases hf : s.reverse.find? (fun c => VOWELS.contains c) with
  | none => left; decide
  | some v =>
    have hp := List.find?_some hf
    have hv : v ∈ VOWELS := by simpa using hp
    unfold VOWELS at hv
    exact List.mem_append.mp hv

theorem makmek_fixed :
    ∀ c ∈ chars ("mak") ++ chars ("mek"),
      foldFixedChar c = true ∧ isWsChar c = false := by decide

/-- C9: for every folded token ending in a recognized progressive
("yor"-initial) suffix of the table whose remaining prefix has at least
2 characters, the candidate set contains the bare root (the prefix;
additionally, with its trailing vowel dropped when the prefix ends in a
vowel and the dropped form is long enough), and a synthesized infinitive
built by appending "mak" when the last vowel of the root is a back vowel
(also the default when no vowel occurs, since `last_vowel` then yields
the letter a) and "mek" when it is a front vowel. -/
theorem tr_stem_progressive (t suf : Str)
    (hfold : fold_tr t = t) (hnws : ∀ c ∈ t, isWsChar c = false)
    (hsuf : suf ∈ SUFFIXES_F) (hyor : (chars ("yor")).isPrefixOf suf = true)
    (hend : suf.isSuffixOf t = true)
    (hlen : 2 ≤ (t.take (t.length - suf.length)).length) :
    t.take (t.length - suf.length) ∈ tr_stem_candidates t ∧
    (endsWithInf (t.take (t.length - suf.length)) = false →
      (last_vowel (t.take (t.length - suf.length)) ∈ VOWELS_A ∧
        t.take (t.length - suf.length) ++ chars ("mak") ∈
          tr_stem_candidates t) ∨
      (last_vowel (t.take (t.length - suf.length)) ∈ VOWELS_E ∧
        t.take (t.length - suf.length) ++ chars ("mek") ∈
          tr_stem_candidates t)) ∧
    (∀ v, (t.take (t.length - suf.length)).getLast? = some v →
      VOWELS.contains v = true →
      2 ≤ ((t.take (t.length - suf.length)).dropLast).length →
      (t.take (t.length - suf.length)).dropLast ∈ tr_stem_candidates t) := by
  have hfixt := fixed_of_fold_eq hfold
  have hfixb : ∀ c ∈ t.take (t.length - suf.length), foldFixedChar c = true :=
    fun c hc => hfixt c (List.take_subset _ _ hc)
  have hnwsb : ∀ c ∈ t.take (t.length - suf.length), isWsChar c = false :=
    fun c hc => hnws c (List.take_subset _ _ hc)
  have hfoldb : fold_tr (t.take (t.length - suf.length)) =
      t.take (t.length - suf.length) := fold_tr_fixed_of hfixb hnwsb
  have h1 : t.take (t.length - suf.length) ∈ stemOut3 t :=
    stemOut3_of_out1 (stemOut1_base t suf hsuf hend) hlen
  refine ⟨?_, ?_, ?_⟩
  · have h2 := tr_stem_mem (stemOut4_of_out3 h1)
    rw [hfoldb] at h2
    exact h2
  · intro hninf
    have hmem := stemOut4_inf h1 hninf
    have hguess : ∀ c ∈ guess_inf_suffix (t.take (t.length - suf.length)),
        c ∈ chars ("mak") ++ chars ("mek") := by
      intro c h
      unfold guess_inf_suffix at h
      by_cases hA : VOWELS_A.contains
          (last_vowel (t.take (t.length - suf.length))) = true
      · rw [if_pos hA] at h; exact List.mem_append_left _ h
      · rw [if_neg hA] at h; exact List.mem_append_right _ h
    have hfix2 : ∀ c ∈ t.take (t.length - suf.length) ++
        guess_inf_suffix (t.take (t.length - suf.length)),
        foldFixedChar c = true := by
      intro c hc
      rcases List.mem_append.mp hc with h | h
      · exact hfixb c h
      · exact (makmek_fixed c (hguess c h)).1
    have hnws2 : ∀ c ∈ t.take (t.length - suf.length) ++
        guess_inf_suffix (t.take (t.length - suf.length)),
        isWsChar c = false := by
      intro c hc
      rcases List.mem_append.mp hc with h | h
      · exact hnwsb c h
      · exact (makmek_fixed c (hguess c h)).2
    have hin := tr_stem_mem hmem
    rw [fold_tr_fixed_of hfix2 hnws2] at hin
    by_cases hA : VOWELS_A.contains
        (last_vowel (t.take (t.length - suf.length))) = true
    · left
      refine ⟨by simpa using hA, ?_⟩
      have hg : guess_inf_suffix (t.take (t.length - suf.length)) =
          chars ("mak") := by
        unfold guess_inf_suffix
        rw [if_pos hA]
      rw [hg] at hin
      exact hin
    · right
      refine ⟨?_, ?_⟩
      · rcases last_vowel_mem (t.take (t.length - suf.length)) with h | h
        · exact absurd (by simpa using h) hA
        · exact h
      · have hg : guess_inf_suffix (t.take (t.length - suf.length)) =
            chars ("mek") := by
          unfold guess_inf_suffix
          rw [if_neg hA]
        rw [hg] at hin
        exact hin
  · intro v hv hvv hlen2
    have hne : (t.take (t.length - suf.length)).isEmpty = false := by
      cases hb : t.take (t.length - suf.length) with
      | nil => rw [hb] at hlen; simp at hlen
      | cons a as => rfl
    have hd3 := stemOut3_of_out1
      (stemOut1_drop t suf hsuf hend hv hvv hyor hne) hlen2
    have hfixd : ∀ c ∈ (t.take (t.length - suf.length)).dropLast,
        foldFixedChar c = true :=
      fun c hc => hfixb c (List.dropLast_subset _ hc)
    have hnwsd : ∀ c ∈ (t.take (t.length - suf.length)).dropLast,
        isWsChar c = false :=
      fun c hc => hnwsb c (List.dropLast_subset _ hc)
    have h2 := tr_stem_mem (stemOut4_of_out3 hd3)
    rw [fold_tr_fixed_of hfixd hnwsd] at h2
    exact h2

/-- Witness for C9 at the folded token "savasiyordu" with the
progressive suffix "yordu": the candidate set contains the bare roots
"savasi" and "savas" and the infinitive "savasimek". -/
theorem tr_stem_progressive_witness :
    (fold_tr (chars ("savasiyordu")) = chars ("savasiyordu") ∧
     (∀ c ∈ chars ("savasiyordu"), isWsChar c = false) ∧
     chars ("yordu") ∈ SUFFIXES_F ∧
     (chars ("yor")).isPrefixOf (chars ("yordu")) = true ∧
     (chars ("yordu")).isSuffixOf (chars ("savasiyordu")) = true ∧
     2 ≤ ((chars ("savasiyordu")).take
       ((chars ("savasiyordu")).length - (chars ("yordu")).length)).length) ∧
    ((chars ("savasiyordu")).take
        ((chars ("savasiyordu")).length - (chars ("yordu")).length) ∈
      tr_stem_candidates (chars ("savasiyordu")) ∧
    (endsWithInf ((chars ("savasiyordu")).take
        ((chars ("savasiyordu")).length - (chars ("yordu")).length)) = false →
      (last_vowel ((chars ("savasiyordu")).take
          ((chars ("savasiyordu")).length - (chars ("yordu")).length)) ∈
            VOWELS_A ∧
        (chars ("savasiyordu")).take
          ((chars ("savasiyordu")).length - (chars ("yordu")).length) ++
            chars ("mak") ∈ tr_stem_candidates (chars ("savasiyordu"))) ∨
      (last_vowel ((chars ("savasiyordu")).take
          ((chars ("savasiyordu")).length - (chars ("yordu")).length)) ∈
            VOWELS_E ∧
        (chars ("savasiyordu")).take
          ((chars ("savasiyordu")).length - (chars ("yordu")).length) ++
            chars ("mek") ∈ tr_stem_candidates (chars ("savasiyordu")))) ∧
    (∀ v, ((chars ("savasiyordu")).take
        ((chars ("savasiyordu")).length - (chars ("yordu")).length)).getLast? =
          some v →
      VOWELS.contains v = true →
      2 ≤ (((chars ("savasiyordu")).take
        ((chars ("savasiyordu")).length - (chars ("yordu")).length)).dropLast).length →
      ((chars ("savasiyordu")).take
        ((chars ("savasiyordu")).length - (chars ("yordu")).length)).dropLast ∈
          tr_stem_candidates (chars ("savasiyordu")))) :=
  ⟨⟨by decide, by decide, by decide, by decide, by decide, by decide⟩,
   tr_stem_progressive (chars ("savasiyordu")) (chars ("yordu"))
     (by decide) (by decide) (by decide) (by decide) (by decide) (by decide)⟩
